import Mathlib

/-!
Verification of the manual-edit reconciliation and change-log engine of the
funding-advisor backend (`backend/src/db.js` and its HTTP callers in
`backend/src/server.js`).

The JavaScript code is shallowly embedded: JavaScript/JSON values become the
mutual inductive `JsValue`, SQLite cell values become `SqlValue`, JavaScript
numbers are modelled as exact rationals (`ℚ`), and each exported function of
the database module becomes an executable Lean function over explicit state.
All definitions are kernel-executable so that concrete runs can be settled by
`decide`.
-/

set_option maxRecDepth 2000
set_option maxHeartbeats 1000000

/-! ## Characters, digits and low-level string helpers -/

/-- Whitespace as recognised by `String.prototype.trim` (restricted to the
ASCII whitespace actually occurring in the data paths). -/
def isWsChar (c : Char) : Bool :=
  c = ' ' || c = '\t' || c = '\n' || c = '\r'

/-- Model of `String.prototype.trim`. -/
def jsTrim (s : String) : String :=
  ⟨((s.data.dropWhile isWsChar).reverse.dropWhile isWsChar).reverse⟩

/-- Character for a single decimal digit. -/
def digitChar (n : Nat) : Char := Char.ofNat (48 + n)

/-- Decimal digits of a natural number, most significant first.  The first
argument is recursion fuel; `natRepr` supplies enough of it. -/
def natDigitsAux : Nat → Nat → List Char
  | 0, _ => []
  | fuel + 1, n =>
    if n < 10 then [digitChar n]
    else natDigitsAux fuel (n / 10) ++ [digitChar (n % 10)]

/-- Decimal representation of a natural number (model of the decimal part of
JavaScript number-to-string conversion). -/
def natRepr (n : Nat) : List Char := natDigitsAux (n + 1) n

/-- Numeric value of a decimal digit character list (no validity check; used
together with `isDigitChar` guards). -/
def digitsToNat (l : List Char) : Nat :=
  l.foldl (fun acc c => acc * 10 + (c.toNat - 48)) 0

/-- Recognize a decimal digit character. -/
def isDigitChar (c : Char) : Bool := 48 ≤ c.toNat && c.toNat ≤ 57

/-- Left-pad a digit string with zeros to the given length. -/
def padZeros (l : List Char) (k : Nat) : List Char :=
  List.replicate (k - l.length) '0' ++ l

/-- Hexadecimal digit character (lower case, as in `\u00XX` escapes). -/
def hexDigitChar (n : Nat) : Char :=
  if n < 10 then Char.ofNat (48 + n) else Char.ofNat (87 + n)

/-! ## JavaScript/JSON values

JavaScript values reachable in the manual-update and diff paths:
`undefined`, `null`, booleans, numbers (modelled as exact rationals),
strings, arrays and plain objects.  Arrays and objects are mutual
inductives so that all functions over them are structurally recursive and
kernel-executable. -/

mutual
inductive JsValue where
  | undef
  | jnull
  | jbool (b : Bool)
  | jnum (q : ℚ)
  | jstr (s : String)
  | jarr (elems : JsArr)
  | jobj (fields : JsObj)
  deriving DecidableEq
inductive JsArr where
  | nil
  | cons (head : JsValue) (tail : JsArr)
  deriving DecidableEq
inductive JsObj where
  | nil
  | cons (key : String) (value : JsValue) (tail : JsObj)
  deriving DecidableEq
end

/-- Object fields as a Lean list of key/value pairs (entry order, as
`Object.entries` returns them). -/
def JsObj.entries : JsObj → List (String × JsValue)
  | .nil => []
  | .cons k v tl => (k, v) :: JsObj.entries tl

/-- Array elements as a Lean list. -/
def JsArr.toList : JsArr → List JsValue
  | .nil => []
  | .cons v tl => v :: JsArr.toList tl

/-- Model of the JavaScript `typeof` operator restricted to the cases the
source inspects (`typeof x === "object"`, `"string"`, `"number"`). -/
def JsValue.typeName : JsValue → String
  | .undef => "undefined"
  | .jnull => "object"
  | .jbool _ => "boolean"
  | .jnum _ => "number"
  | .jstr _ => "string"
  | .jarr _ => "object"
  | .jobj _ => "object"

/-- Model of JavaScript truthiness (`!x` negated) for the values in scope:
`undefined`, `null`, `false`, `0` and `""` are falsy. -/
def JsValue.truthy : JsValue → Bool
  | .undef => false
  | .jnull => false
  | .jbool b => b
  | .jnum q => !(q.num = 0)
  | .jstr s => !(s = "")
  | .jarr _ => true
  | .jobj _ => true

/-- Model of `Array.isArray`. -/
def JsValue.isArray : JsValue → Bool
  | .jarr _ => true
  | _ => false

/-! ## JavaScript number-to-string conversion

JavaScript prints a finite double in decimal.  In the rational model the
denominator of a printable number divides a power of ten; `jsNumToString`
produces that decimal form (numbers whose reduced denominator is not of the
form `2^a * 5^b` cannot arise from JSON input and get an inert fallback
rendering). -/

/-- Decimal string of a rational (model of JavaScript `Number#toString` /
`JSON.stringify` for numbers). -/
def jsNumToString (q : ℚ) : String :=
  if q.num = 0 then "0"
  else
    let sign : List Char := if q.num < 0 then ['-'] else []
    let n := q.num.natAbs
    let d := q.den
    match (List.range (d + 1)).find? (fun k => decide (d ∣ 10 ^ k)) with
    | some k =>
      if k = 0 then ⟨sign ++ natRepr n⟩
      else
        let m := n * 10 ^ k / d
        ⟨sign ++ natRepr (m / 10 ^ k) ++ '.' :: padZeros (natRepr (m % 10 ^ k)) k⟩
    | none => ⟨sign ++ natRepr n ++ '/' :: natRepr d⟩

/-! ## JSON serialization (`JSON.stringify`) -/

/-- Escape one character as inside a JSON string literal. -/
def escapeChar (c : Char) : List Char :=
  if c = '"' then ['\\', '"']
  else if c = '\\' then ['\\', '\\']
  else if c = '\n' then ['\\', 'n']
  else if c = '\r' then ['\\', 'r']
  else if c = '\t' then ['\\', 't']
  else if c.toNat = 8 then ['\\', 'b']
  else if c.toNat = 12 then ['\\', 'f']
  else if c.toNat < 32 then ['\\', 'u', '0', '0', hexDigitChar (c.toNat / 16), hexDigitChar (c.toNat % 16)]
  else [c]

/-- Quoted, escaped JSON string literal. -/
def quoteString (s : String) : String :=
  ⟨'"' :: (s.data.map escapeChar).flatten ++ ['"']⟩

/-- Serialization of a scalar exactly as `JSON.stringify` renders it (the
default branch of `flattenJsonValue` and the leaves of the printer). -/
def stringifyScalar : JsValue → String
  | .jbool true => "true"
  | .jbool false => "false"
  | .jnum q => jsNumToString q
  | .jstr s => quoteString s
  | _ => ""

mutual
/-- Characters of `JSON.stringify(v)`.  `undefined` is handled by the
callers (`printJsonArr` renders it as `null`, `printJsonObj` drops the
field, and the top level never receives it in the modelled paths). -/
def printJsonChars : JsValue → List Char
  | .undef => ('n' :: 'u' :: 'l' :: 'l' :: [])
  | .jnull => ('n' :: 'u' :: 'l' :: 'l' :: [])
  | .jbool true => ('t' :: 'r' :: 'u' :: 'e' :: [])
  | .jbool false => ('f' :: 'a' :: 'l' :: 's' :: 'e' :: [])
  | .jnum q => (jsNumToString q).data
  | .jstr s => (quoteString s).data
  | .jarr .nil => ('[' :: ']' :: [])
  | .jarr (.cons v tl) => '[' :: printJsonChars v ++ printJsonArr tl ++ [']']
  | .jobj .nil => ('{' :: '\x7d' :: [])
  | .jobj (.cons k v tl) =>
    '{' :: (quoteString k).data ++ ':' :: printJsonChars v ++ printJsonObj tl ++ ['\x7d']
def printJsonArr : JsArr → List Char
  | .nil => []
  | .cons v tl => ',' :: printJsonChars v ++ printJsonArr tl
def printJsonObj : JsObj → List Char
  | .nil => []
  | .cons k v tl => ',' :: (quoteString k).data ++ ':' :: printJsonChars v ++ printJsonObj tl
end

/-- Model of `JSON.stringify` on the values the code serializes (arrays and
objects of defined values). -/
def printJson (v : JsValue) : String := ⟨printJsonChars v⟩

/-! ## Structural JSON diff (`flattenJsonValue`, `diffRecommendationPayloads`,
`db.js` lines 851-913) -/

mutual
/-- Model of `flattenJsonValue` (`db.js` 851-888): recursively flatten a
JSON value into `(path, canonical scalar representation)` entries.  The
JavaScript accumulator `Map` is recovered by `mapGet`/`mapKeys` below. -/
def flattenJsonValue : JsValue → String → List (String × String)
  | .undef, path => [(path, "undefined")]
  | .jnull, path => [(path, "null")]
  | .jarr .nil, path => [(path, "[]")]
  | .jarr (.cons v tl), path => flattenArr (.cons v tl) 0 path
  | .jobj .nil, path => [(path, "\x7b\x7d")]
  | .jobj (.cons k v tl), path => flattenObj (.cons k v tl) path
  | v, path => [(path, stringifyScalar v)]
def flattenArr : JsArr → Nat → String → List (String × String)
  | .nil, _, _ => []
  | .cons v tl, i, path =>
    flattenJsonValue v (path ++ "[" ++ ⟨natRepr i⟩ ++ "]") ++ flattenArr tl (i + 1) path
def flattenObj : JsObj → String → List (String × String)
  | .nil, _ => []
  | .cons k v tl, path =>
    flattenJsonValue v (if path = "$" then "$." ++ k else path ++ "." ++ k) ++ flattenObj tl path
end

/-- Lookup in the flattened entry list with the same result as `Map.get`:
later `set`s win, so the last matching entry is returned. -/
def mapGet (l : List (String × String)) (p : String) : Option String :=
  (l.reverse.find? (fun e => e.1 = p)).map Prod.snd

/-- First-occurrence deduplication (accumulator form). -/
def firstDedupAux : List String → List String → List String
  | acc, [] => acc
  | acc, p :: ps => if p ∈ acc then firstDedupAux acc ps else firstDedupAux (acc ++ [p]) ps

/-- Keys in first-insertion order without duplicates, as iterating a
JavaScript `Map`/`Set` yields them. -/
def firstDedup (l : List String) : List String := firstDedupAux [] l

/-- One emitted diff row `{jsonPath, fromValue, toValue}`. -/
structure ChangeRow where
  jsonPath : String
  fromValue : String
  toValue : String
  deriving DecidableEq

/-- Model of `diffRecommendationPayloads` (`db.js` 890-913): union of both
flattened path sets, a row per path whose canonical representation
differs, a missing side rendered as `"undefined"`. -/
def diffRecommendationPayloads (currentPayload nextPayload : JsValue) : List ChangeRow :=
  let currentFlat := flattenJsonValue currentPayload "$"
  let nextFlat := flattenJsonValue nextPayload "$"
  let allPaths := firstDedup (currentFlat.map Prod.fst ++ nextFlat.map Prod.fst)
  allPaths.filterMap fun path =>
    let before := (mapGet currentFlat path).getD "undefined"
    let after := (mapGet nextFlat path).getD "undefined"
    if before = after then none
    else some { jsonPath := path, fromValue := before, toValue := after }

/-! ### Helper lemmas for the diff -/

theorem mem_firstDedupAux (acc l : List String) (x : String) :
    x ∈ firstDedupAux acc l ↔ x ∈ acc ∨ x ∈ l := by
  induction l generalizing acc with
  | nil => simp [firstDedupAux]
  | cons p ps ih =>
    simp only [firstDedupAux]
    split
    · rw [ih]
      constructor
      · rintro (h | h)
        · exact Or.inl h
        · exact Or.inr (List.mem_cons_of_mem _ h)
      · rintro (h | h)
        · exact Or.inl h
        · rcases List.mem_cons.mp h with rfl | h
          · exact Or.inl (by assumption)
          · exact Or.inr h
    · rw [ih]
      simp only [List.mem_append, List.mem_singleton, List.mem_cons]
      tauto

theorem mem_firstDedup (l : List String) (x : String) :
    x ∈ firstDedup l ↔ x ∈ l := by
  rw [firstDedup, mem_firstDedupAux]
  simp

theorem nodup_firstDedupAux (acc l : List String) (h : acc.Nodup) :
    (firstDedupAux acc l).Nodup := by
  induction l generalizing acc with
  | nil => exact h
  | cons p ps ih =>
    simp only [firstDedupAux]
    split
    · exact ih acc h
    · refine ih (acc ++ [p]) ?_
      simp only [List.nodup_append, List.nodup_singleton]
      refine ⟨h, trivial, ?_⟩
      intro a ha
      simp only [List.mem_singleton]
      rintro rfl
      exact absurd ha (by assumption)

theorem nodup_firstDedup (l : List String) : (firstDedup l).Nodup :=
  nodup_firstDedupAux [] l List.nodup_nil

/-- Canonical representation of the leaf of `v` at `path` as the diff sees
it: the flattened value, or `"undefined"` when the path is absent. -/
def canonAt (v : JsValue) (p : String) : String :=
  (mapGet (flattenJsonValue v "$") p).getD "undefined"

/-- Paths produced by flattening `v` from the root. -/
def pathKeys (v : JsValue) : List String :=
  (flattenJsonValue v "$").map Prod.fst

theorem mapGet_eq_none_of_not_mem (l : List (String × String)) (p : String)
    (h : p ∉ l.map Prod.fst) : mapGet l p = none := by
  rw [mapGet, Option.map_eq_none', List.find?_eq_none]
  intro e he
  simp only [decide_eq_true_eq]
  intro hep
  exact h (List.mem_map.mpr ⟨e, List.mem_reverse.mp he, hep⟩)

/-! ## Claim C4 -/

/-- C4: for every JSON value `X` (objects, arrays, scalars, nulls, nested
empty containers included) the structural diff of `X` against itself is
empty: `diff(X, X) = []`. -/
theorem c4_diff_self_empty (X : JsValue) : diffRecommendationPayloads X X = [] := by
  rw [diffRecommendationPayloads]
  apply List.filterMap_eq_nil_iff.mpr
  intro p hp
  simp

/-! ## Claim C5 -/

/-- C5: `diff({a:1}, {a:"1"})` yields exactly one change, at path `$.a`,
because the canonical serialized forms of the number `1` and the string
`"1"` differ. -/
theorem c5_diff_number_vs_string :
    diffRecommendationPayloads (.jobj (.cons "a" (.jnum 1) .nil))
      (.jobj (.cons "a" (.jstr "1") .nil)) =
      [{ jsonPath := "$.a", fromValue := "1", toValue := "\"1\"" }] := by
  decide

/-! ## Claim C6 -/

theorem diff_row_shape (cur next : JsValue) (row : ChangeRow) :
    row ∈ diffRecommendationPayloads cur next ↔
      (row.jsonPath ∈ pathKeys cur ∨ row.jsonPath ∈ pathKeys next) ∧
        row.fromValue = canonAt cur row.jsonPath ∧
        row.toValue = canonAt next row.jsonPath ∧
        row.fromValue ≠ row.toValue := by
  rw [diffRecommendationPayloads]
  simp only [List.mem_filterMap]
  constructor
  · rintro ⟨p, hp, he⟩
    by_cases h : canonAt cur p = canonAt next p
    · rw [if_pos (by simpa [canonAt] using h)] at he
      exact absurd he (by simp)
    · rw [if_neg (by simpa [canonAt] using h)] at he
      obtain rfl := (Option.some_inj.mp he).symm
      refine ⟨?_, rfl, rfl, h⟩
      have := (mem_firstDedup _ _).mp hp
      simpa [pathKeys, canonAt] using this
  · rintro ⟨hmem, hfrom, hto, hne⟩
    refine ⟨row.jsonPath, ?_, ?_⟩
    · rw [mem_firstDedup]
      simpa [pathKeys] using hmem
    · rw [if_neg]
      · cases row
        simp_all [canonAt]
      · simpa [canonAt, hfrom, hto] using hne

theorem diff_map_jsonPath (cur next : JsValue) :
    (diffRecommendationPayloads cur next).map ChangeRow.jsonPath =
      (firstDedup (pathKeys cur ++ pathKeys next)).filter
        (fun p => decide (canonAt cur p ≠ canonAt next p)) := by
  rw [diffRecommendationPayloads]
  simp only [pathKeys]
  generalize firstDedup (List.map Prod.fst (flattenJsonValue cur "$") ++
      List.map Prod.fst (flattenJsonValue next "$")) = L
  induction L with
  | nil => simp
  | cons p ps ih =>
    simp only [List.filterMap_cons, List.filter_cons]
    by_cases h : canonAt cur p = canonAt next p
    · have h1 : (mapGet (flattenJsonValue cur "$") p).getD "undefined" =
          (mapGet (flattenJsonValue next "$") p).getD "undefined" := h
      rw [if_pos h1, ih]
      simp [h]
    · have h1 : ¬ ((mapGet (flattenJsonValue cur "$") p).getD "undefined" =
          (mapGet (flattenJsonValue next "$") p).getD "undefined") := h
      rw [if_neg h1]
      simp only [List.map_cons, ih]
      simp [h]

/-- C6: the flattening canonicalizes leaves exactly as specified
(`undefined` to `"undefined"`, `null` to `"null"`, an empty array to
`"[]"`, an empty object to the two-brace literal, any other scalar to
its JSON-serialized form), the diff renders a path present in only one
side as `"undefined"` on the other side, and it emits exactly one change
row for every union path whose canonical representation differs between
before and after. -/
theorem c6_flatten_and_diff_semantics :
    (∀ path, flattenJsonValue .undef path = [(path, "undefined")]) ∧
    (∀ path, flattenJsonValue .jnull path = [(path, "null")]) ∧
    (∀ path, flattenJsonValue (.jarr .nil) path = [(path, "[]")]) ∧
    (∀ path, flattenJsonValue (.jobj .nil) path = [(path, "\x7b\x7d")]) ∧
    (∀ b path, flattenJsonValue (.jbool b) path = [(path, stringifyScalar (.jbool b))]) ∧
    (∀ q path, flattenJsonValue (.jnum q) path = [(path, stringifyScalar (.jnum q))]) ∧
    (∀ s path, flattenJsonValue (.jstr s) path = [(path, stringifyScalar (.jstr s))]) ∧
    (∀ v p, p ∉ pathKeys v → canonAt v p = "undefined") ∧
    (∀ cur next row, row ∈ diffRecommendationPayloads cur next ↔
      (row.jsonPath ∈ pathKeys cur ∨ row.jsonPath ∈ pathKeys next) ∧
        row.fromValue = canonAt cur row.jsonPath ∧
        row.toValue = canonAt next row.jsonPath ∧
        row.fromValue ≠ row.toValue) ∧
    (∀ cur next, ((diffRecommendationPayloads cur next).map ChangeRow.jsonPath).Nodup) := by
  refine ⟨fun _ => rfl, fun _ => rfl, fun _ => rfl, fun _ => rfl, fun _ _ => rfl,
    fun _ _ => rfl, fun _ _ => rfl, ?_, diff_row_shape, ?_⟩
  · intro v p hp
    rw [canonAt, mapGet_eq_none_of_not_mem]
    · rfl
    · simpa [pathKeys] using hp
  · intro cur next
    rw [diff_map_jsonPath]
    exact (nodup_firstDedup _).filter _

/-- Witness for C6: a path present only in the new payload is rendered as
`"undefined"` on the before side. -/
theorem c6_flatten_and_diff_semantics_witness :
    "$.a" ∉ pathKeys (.jobj .nil) ∧ canonAt (.jobj .nil) "$.a" = "undefined" :=
  ⟨by decide, c6_flatten_and_diff_semantics.2.2.2.2.2.2.2.1 (.jobj .nil) "$.a" (by decide)⟩

/-! ## JSON parsing (`JSON.parse`)

The parser follows the JSON grammar (values, objects with last-wins
duplicate keys, arrays, strings with escapes, numbers with optional
fraction and exponent, interspersed whitespace).  Numbers are read as
exact rationals; the IEEE overflow of astronomically large literals to
`Infinity` lies outside the rational model. -/

/-- Skip JSON whitespace. -/
def skipWs : List Char → List Char
  | c :: cs => if isWsChar c then skipWs cs else c :: cs
  | [] => []

/-- Value of one hexadecimal digit character. -/
def hexVal (c : Char) : Option Nat :=
  if 48 ≤ c.toNat && c.toNat ≤ 57 then some (c.toNat - 48)
  else if 97 ≤ c.toNat && c.toNat ≤ 102 then some (c.toNat - 87)
  else if 65 ≤ c.toNat && c.toNat ≤ 70 then some (c.toNat - 55)
  else none

/-- Parse the body of a JSON string literal after the opening quote,
returning the unescaped content and the remaining input. -/
def parseStringBody : List Char → Option (List Char × List Char)
  | [] => none
  | c :: cs =>
    if c = '"' then some ([], cs)
    else if c = '\\' then
      match cs with
      | [] => none
      | e :: cs2 =>
        if e = '"' then (parseStringBody cs2).map (fun r => ('"' :: r.1, r.2))
        else if e = '\\' then (parseStringBody cs2).map (fun r => ('\\' :: r.1, r.2))
        else if e = '/' then (parseStringBody cs2).map (fun r => ('/' :: r.1, r.2))
        else if e = 'b' then (parseStringBody cs2).map (fun r => (Char.ofNat 8 :: r.1, r.2))
        else if e = 'f' then (parseStringBody cs2).map (fun r => (Char.ofNat 12 :: r.1, r.2))
        else if e = 'n' then (parseStringBody cs2).map (fun r => ('\n' :: r.1, r.2))
        else if e = 'r' then (parseStringBody cs2).map (fun r => ('\r' :: r.1, r.2))
        else if e = 't' then (parseStringBody cs2).map (fun r => ('\t' :: r.1, r.2))
        else if e = 'u' then
          match cs2 with
          | h1 :: h2 :: h3 :: h4 :: cs3 =>
            match hexVal h1, hexVal h2, hexVal h3, hexVal h4 with
            | some a, some b, some c3, some d =>
              (parseStringBody cs3).map
                (fun r => (Char.ofNat (((a * 16 + b) * 16 + c3) * 16 + d) :: r.1, r.2))
            | _, _, _, _ => none
          | _ => none
        else none
    else (parseStringBody cs).map (fun r => (c :: r.1, r.2))

/-- Longest prefix of decimal digits. -/
def takeDigits : List Char → List Char × List Char
  | [] => ([], [])
  | c :: cs =>
    if isDigitChar c then
      let r := takeDigits cs
      (c :: r.1, r.2)
    else ([], c :: cs)

/-- Exact rational `(-1)^neg * mant / 10^f * 10^e` built with a single
`mkRat` so that it kernel-reduces. -/
def ratOfParts (neg : Bool) (mant : Nat) (f : Nat) (e : Int) : ℚ :=
  let sign : Int := if neg then -1 else 1
  if e ≥ f then mkRat (sign * mant * 10 ^ (e - f).toNat) 1
  else mkRat (sign * mant) (10 ^ (f - e).toNat)

/-- Parse a JSON number literal (sign, integer part without leading zeros,
optional fraction, optional exponent). -/
def parseJsonNumber (cs : List Char) : Option (ℚ × List Char) :=
  let (neg, cs1) : Bool × List Char :=
    match cs with
    | '-' :: tl => (true, tl)
    | _ => (false, cs)
  let (intDs, cs2) := takeDigits cs1
  if intDs = [] then none
  else if intDs.length > 1 && intDs.headI = '0' then none
  else
    let (fracDs, cs3) : List Char × List Char :=
      match cs2 with
      | '.' :: tl => takeDigits tl
      | _ => ([], cs2)
    if (cs2.headI = '.' && cs2 ≠ []) && fracDs = [] then none
    else
      let afterFrac := if cs2.headI = '.' && cs2 ≠ [] then cs3 else cs2
      match afterFrac with
      | e :: tl =>
        if e = 'e' || e = 'E' then
          let (expNeg, tl1) : Bool × List Char :=
            match tl with
            | '-' :: t2 => (true, t2)
            | '+' :: t2 => (false, t2)
            | _ => (false, tl)
          let (expDs, tl2) := takeDigits tl1
          if expDs = [] then none
          else
            let eVal : Int := if expNeg then -(digitsToNat expDs : Int) else (digitsToNat expDs : Int)
            some (ratOfParts neg (digitsToNat (intDs ++ fracDs)) fracDs.length eVal, tl2)
        else some (ratOfParts neg (digitsToNat (intDs ++ fracDs)) fracDs.length 0, afterFrac)
      | [] => some (ratOfParts neg (digitsToNat (intDs ++ fracDs)) fracDs.length 0, [])

/-- Upsert into an object: assignment to an existing key replaces its value
in place, a new key is appended (JavaScript property-assignment order, so
`JSON.parse` keeps the last duplicate's value at the first occurrence). -/
def jsObjSet : JsObj → String → JsValue → JsObj
  | .nil, k, v => .cons k v .nil
  | .cons k0 v0 tl, k, v =>
    if k0 = k then .cons k0 v tl else .cons k0 v0 (jsObjSet tl k v)

mutual
/-- Parse one JSON value.  The first argument is recursion fuel;
`parseJson` supplies more than the nesting depth of any input it is
given, so the fuel never runs out on well-formed input. -/
def parseValue : Nat → List Char → Option (JsValue × List Char)
  | 0, _ => none
  | fuel + 1, cs =>
    match skipWs cs with
    | '"' :: rest => (parseStringBody rest).map (fun r => (.jstr ⟨r.1⟩, r.2))
    | 't' :: 'r' :: 'u' :: 'e' :: rest => some (.jbool true, rest)
    | 'f' :: 'a' :: 'l' :: 's' :: 'e' :: rest => some (.jbool false, rest)
    | 'n' :: 'u' :: 'l' :: 'l' :: rest => some (.jnull, rest)
    | '[' :: rest =>
      (match skipWs rest with
       | ']' :: rest2 => some (.jarr .nil, rest2)
       | other => (parseArrItems fuel other).map (fun r => (.jarr r.1, r.2)))
    | '{' :: rest =>
      (match skipWs rest with
       | '\x7d' :: rest2 => some (.jobj .nil, rest2)
       | other => (parseObjItems fuel other .nil).map (fun r => (.jobj r.1, r.2)))
    | other => (parseJsonNumber other).map (fun r => (.jnum r.1, r.2))
/-- Parse the comma-separated items of a non-empty JSON array. -/
def parseArrItems : Nat → List Char → Option (JsArr × List Char)
  | 0, _ => none
  | fuel + 1, cs =>
    (parseValue fuel cs).bind fun r =>
      match skipWs r.2 with
      | ',' :: rest => (parseArrItems fuel rest).map (fun r2 => (.cons r.1 r2.1, r2.2))
      | ']' :: rest => some (.cons r.1 .nil, rest)
      | _ => none
/-- Parse the members of a non-empty JSON object into an accumulator with
last-wins duplicate keys. -/
def parseObjItems : Nat → List Char → JsObj → Option (JsObj × List Char)
  | 0, _, _ => none
  | fuel + 1, cs, acc =>
    match skipWs cs with
    | '"' :: rest =>
      (parseStringBody rest).bind fun rk =>
        match skipWs rk.2 with
        | ':' :: rest2 =>
          (parseValue fuel rest2).bind fun rv =>
            match skipWs rv.2 with
            | ',' :: rest3 => parseObjItems fuel rest3 (jsObjSet acc ⟨rk.1⟩ rv.1)
            | '\x7d' :: rest3 => some (jsObjSet acc ⟨rk.1⟩ rv.1, rest3)
            | _ => none
        | _ => none
    | _ => none
end

/-- Model of `JSON.parse`: parse one value and require only whitespace to
remain.  `none` models a thrown `SyntaxError`. -/
def parseJson (s : String) : Option JsValue :=
  match parseValue (s.length + 1) s.data with
  | some (v, rest) => if skipWs rest = [] then some v else none
  | none => none

/-! ## JavaScript `Number(string)` (used by `coerceManualValue`)

`Number(trimmed)` on a non-empty trimmed string accepts decimal literals
with optional sign, fraction and exponent (leading zeros allowed), plus
`0x`/`0o`/`0b` integer literals; `Infinity` and unparseable text are not
finite.  The model returns `some q` exactly when the JavaScript result
passes `Number.isFinite`, with IEEE overflow to `Infinity` decided against
the exact double-rounding threshold `2^1024 - 2^970`. -/

/-- Overflow threshold: doubles round to `Infinity` from this value up.
Written as a decimal literal (the value of `2 ^ 1024 - 2 ^ 970`, see
`doubleOverflowThreshold_eq`) so that it kernel-reduces cheaply. -/
def doubleOverflowThreshold : ℕ := 179769313486231580793728971405303415079934132710037826936173778980444968292764750946649017977587207096330286416692887910946555547851940402630657488671505820681908902000708383676273854845817711531764475730270069855571366959622842914819860834936475292719074168444365510704342711559699508093042880177904174497792

/-- Check of the threshold literal against its defining expression. -/
theorem doubleOverflowThreshold_eq : doubleOverflowThreshold = 2 ^ 1024 - 2 ^ 970 := by
  norm_num [doubleOverflowThreshold]

/-- Check `|q| ≥ doubleOverflowThreshold` with integer arithmetic. -/
def ratOverflows (q : ℚ) : Bool :=
  decide (q.num.natAbs ≥ doubleOverflowThreshold * q.den)

/-- Decimal-literal part of `Number(string)`, with finiteness decided by
magnitude guards and, on the boundary decade, the exact threshold. -/
def finiteDecimal (neg : Bool) (mant : Nat) (f : Nat) (e : Int) : Option ℚ :=
  if mant = 0 then some 0
  else
    let digits : Int := (natRepr mant).length
    let mag : Int := digits + e - f
    if mag ≥ 310 then none
    else if mag ≤ -324 then some 0
    else
      let q := ratOfParts neg mant f e
      if ratOverflows q then none else some q

/-- Parse the digits of a base-`b` integer literal (for `0x`, `0o`, `0b`). -/
def parseRadixDigits (b : Nat) (cs : List Char) : Option Nat :=
  match cs with
  | [] => none
  | _ =>
    let step : Option Nat → Char → Option Nat := fun acc c =>
      acc.bind fun n =>
        (hexVal c).bind fun d => if d < b then some (n * b + d) else none
    cs.foldl step (some 0)

/-- Model of `Number(s)` followed by `Number.isFinite` for a non-empty
trimmed string `s` (the only way `coerceManualValue` calls it): `some q`
when the string parses to the finite number `q`, `none` when the result
is `NaN` or an infinity. -/
def jsParseFiniteNumber (s : String) : Option ℚ :=
  match s.data with
  | '0' :: x :: rest =>
    if x = 'x' || x = 'X' then
      (parseRadixDigits 16 rest).bind fun n =>
        if (doubleOverflowThreshold : Nat) ≤ n then none else some (mkRat n 1)
    else if x = 'o' || x = 'O' then
      (parseRadixDigits 8 rest).bind fun n => some (mkRat n 1)
    else if x = 'b' || x = 'B' then
      (parseRadixDigits 2 rest).bind fun n => some (mkRat n 1)
    else jsParseDecimalChars ('0' :: x :: rest)
  | cs => jsParseDecimalChars cs
where
  jsParseDecimalChars (cs : List Char) : Option ℚ :=
    let (neg, cs1) : Bool × List Char :=
      match cs with
      | '-' :: tl => (true, tl)
      | '+' :: tl => (false, tl)
      | _ => (false, cs)
    match cs1 with
    | 'I' :: 'n' :: 'f' :: 'i' :: 'n' :: 'i' :: 't' :: 'y' :: [] => none
    | _ =>
      let (intDs, cs2) := takeDigits cs1
      let (fracDs, cs3) : List Char × List Char :=
        match cs2 with
        | '.' :: tl => takeDigits tl
        | _ => ([], cs2)
      let afterFrac := if cs2.headI = '.' && cs2 ≠ [] then cs3 else cs2
      if intDs = [] && fracDs = [] then none
      else
        match afterFrac with
        | [] => finiteDecimal neg (digitsToNat (intDs ++ fracDs)) fracDs.length 0
        | e :: tl =>
          if e = 'e' || e = 'E' then
            let (expNeg, tl1) : Bool × List Char :=
              match tl with
              | '-' :: t2 => (true, t2)
              | '+' :: t2 => (false, t2)
              | _ => (false, tl)
            let (expDs, tl2) := takeDigits tl1
            if expDs = [] || tl2 ≠ [] then none
            else
              let eVal : Int :=
                if expNeg then -(digitsToNat expDs : Int) else (digitsToNat expDs : Int)
              finiteDecimal neg (digitsToNat (intDs ++ fracDs)) fracDs.length eVal
          else none

/-- Decidable equality for `Except` results (needed to settle concrete runs
by `decide`). -/
instance instDecidableEqExcept [DecidableEq e] [DecidableEq a] :
    DecidableEq (Except e a) := fun x y =>
  match x, y with
  | .error u, .error v =>
    match decEq u v with
    | isTrue h => isTrue (by rw [h])
    | isFalse h => isFalse (fun hh => h (by injection hh))
  | .ok u, .ok v =>
    match decEq u v with
    | isTrue h => isTrue (by rw [h])
    | isFalse h => isFalse (fun hh => h (by injection hh))
  | .error _, .ok _ => isFalse (fun hh => Except.noConfusion hh)
  | .ok _, .error _ => isFalse (fun hh => Except.noConfusion hh)

/-! ## SQLite cell values and the company row

A value read from or written to a SQLite column in the modelled code paths
is `NULL`, a number or a text.  `companies` rows are modelled with one
field per column touched by the manual-update engine. -/

inductive SqlValue where
  | vnull
  | vnum (q : ℚ)
  | vtext (s : String)
  deriving DecidableEq

/-- JavaScript view of a SQLite cell (as `better-sqlite3` returns it). -/
def jsOfSql : SqlValue → JsValue
  | .vnull => .jnull
  | .vnum q => .jnum q
  | .vtext s => .jstr s

/-- Bindable values: `better-sqlite3` binds `null`, numbers and strings and
throws a `TypeError` for booleans, arrays and objects. -/
def sqlOfJsPrim : JsValue → Option SqlValue
  | .jnull => some .vnull
  | .jnum q => some (.vnum q)
  | .jstr s => some (.vtext s)
  | _ => none

/-- Model of JavaScript truthiness of a SQLite cell value (`!rawLog`). -/
def SqlValue.truthy : SqlValue → Bool
  | .vnull => false
  | .vnum q => !(q.num = 0)
  | .vtext s => !(s = "")

/-- Model of the strict equality `storedCell === coercedValue` between a
cell read from the database and a coerced update value.  Reference types
(booleans aside: booleans never come back from these columns) compare
unequal to every cell. -/
def strictEqSqlJs : SqlValue → JsValue → Bool
  | .vnull, .jnull => true
  | .vnum q, .jnum q2 => q = q2
  | .vtext s, .jstr s2 => s = s2
  | _, _ => false

/-- One `companies` row as `SELECT * FROM companies WHERE id = ?` returns
it (the columns the manual-update engine touches). -/
structure CompanyRow where
  id : Int
  name : SqlValue
  business_id : SqlValue
  website_url : SqlValue
  country : SqlValue
  city : SqlValue
  industry_code : SqlValue
  industry_text : SqlValue
  employee_count : SqlValue
  employee_range : SqlValue
  revenue_eur : SqlValue
  revenue_range : SqlValue
  stage : SqlValue
  funding_need_type : SqlValue
  funding_need_min_eur : SqlValue
  funding_need_max_eur : SqlValue
  funding_need_summary : SqlValue
  description : SqlValue
  tags : SqlValue
  manual_change_log : SqlValue
  created_at : SqlValue
  updated_at : SqlValue
  deriving DecidableEq

/-- Dynamic column read `existingRow[columnName]`; an unknown property
reads as `undefined`, which the caller immediately normalizes to `null`,
so the default branch returns `NULL` directly. -/
def getCol (r : CompanyRow) (c : String) : SqlValue :=
  if c = "name" then r.name
  else if c = "business_id" then r.business_id
  else if c = "website_url" then r.website_url
  else if c = "country" then r.country
  else if c = "city" then r.city
  else if c = "industry_code" then r.industry_code
  else if c = "industry_text" then r.industry_text
  else if c = "employee_count" then r.employee_count
  else if c = "employee_range" then r.employee_range
  else if c = "revenue_eur" then r.revenue_eur
  else if c = "revenue_range" then r.revenue_range
  else if c = "stage" then r.stage
  else if c = "funding_need_type" then r.funding_need_type
  else if c = "funding_need_min_eur" then r.funding_need_min_eur
  else if c = "funding_need_max_eur" then r.funding_need_max_eur
  else if c = "funding_need_summary" then r.funding_need_summary
  else if c = "description" then r.description
  else if c = "tags" then r.tags
  else if c = "manual_change_log" then r.manual_change_log
  else .vnull

/-- Dynamic column write, as one `column = @column` fragment of the
generated `UPDATE companies SET ...` statement stores it: the named
column receives the value, every other column keeps its cell. -/
def setColSql (r : CompanyRow) (c : String) (v : SqlValue) : CompanyRow :=
  { id := r.id
    name := if c = "name" then v else r.name
    business_id := if c = "business_id" then v else r.business_id
    website_url := if c = "website_url" then v else r.website_url
    country := if c = "country" then v else r.country
    city := if c = "city" then v else r.city
    industry_code := if c = "industry_code" then v else r.industry_code
    industry_text := if c = "industry_text" then v else r.industry_text
    employee_count := if c = "employee_count" then v else r.employee_count
    employee_range := if c = "employee_range" then v else r.employee_range
    revenue_eur := if c = "revenue_eur" then v else r.revenue_eur
    revenue_range := if c = "revenue_range" then v else r.revenue_range
    stage := if c = "stage" then v else r.stage
    funding_need_type := if c = "funding_need_type" then v else r.funding_need_type
    funding_need_min_eur := if c = "funding_need_min_eur" then v else r.funding_need_min_eur
    funding_need_max_eur := if c = "funding_need_max_eur" then v else r.funding_need_max_eur
    funding_need_summary := if c = "funding_need_summary" then v else r.funding_need_summary
    description := if c = "description" then v else r.description
    tags := if c = "tags" then v else r.tags
    manual_change_log := if c = "manual_change_log" then v else r.manual_change_log
    created_at := r.created_at
    updated_at := if c = "updated_at" then v else r.updated_at }

/-! ## Manual field resolution and value coercion (`db.js` 401-481) -/

/-- Alias table `MANUAL_FIELD_NAME_MAP`. -/
def MANUAL_FIELD_NAME_MAP : List (String × String) :=
  [("funding_need_type_guess", "funding_need_type"),
   ("funding_need_min_eur_guess", "funding_need_min_eur"),
   ("funding_need_max_eur_guess", "funding_need_max_eur"),
   ("funding_need_summary_guess", "funding_need_summary")]

/-- Editable storage columns `MANUAL_EDITABLE_COLUMNS`. -/
def MANUAL_EDITABLE_COLUMNS : List String :=
  ["name", "business_id", "website_url", "country", "city",
   "industry_code", "industry_text", "employee_count", "employee_range",
   "revenue_eur", "revenue_range", "stage", "funding_need_type",
   "funding_need_min_eur", "funding_need_max_eur", "funding_need_summary",
   "description", "tags"]

/-- Numeric columns `MANUAL_NUMERIC_COLUMNS`. -/
def MANUAL_NUMERIC_COLUMNS : List String :=
  ["employee_count", "revenue_eur", "funding_need_min_eur", "funding_need_max_eur"]

/-- Model of `resolveManualColumn` (`db.js` 436-442). -/
def resolveManualColumn (field : String) : Option String :=
  match MANUAL_FIELD_NAME_MAP.find? (fun p => p.1 = field) with
  | some p => some p.2
  | none => if field ∈ MANUAL_EDITABLE_COLUMNS then some field else none

/-- Result of `coerceManualValue`: skip the field, persist a value, or a
validation error message. -/
inductive CoerceOutcome where
  | skip
  | persist (value : JsValue)
  | invalid (message : String)
  deriving DecidableEq

/-- Model of `coerceManualValue` (`db.js` 444-481). -/
def coerceManualValue (column : String) (rawValue : JsValue) : CoerceOutcome :=
  match rawValue with
  | .undef => .skip
  | .jnull => .persist .jnull
  | .jstr s =>
    let trimmed := jsTrim s
    if trimmed = "" then .persist .jnull
    else if column ∈ MANUAL_NUMERIC_COLUMNS then
      match jsParseFiniteNumber trimmed with
      | none => .invalid ("Invalid numeric value for " ++ column)
      | some numeric => .persist (.jnum numeric)
    else .persist (.jstr trimmed)
  | .jnum q =>
    if column ∈ MANUAL_NUMERIC_COLUMNS then .persist (.jnum q)
    else .persist (.jstr (jsNumToString q))
  | v => .persist v

/-! ## The stored manual change log (`parseManualLog`, `db.js` 483-493) -/

/-- Model of `parseManualLog`: a falsy cell, unparseable JSON, or JSON
that is not an array all yield the empty log. -/
def parseManualLog (rawLog : SqlValue) : List JsValue :=
  if !rawLog.truthy then []
  else
    let text := match rawLog with
      | .vtext s => s
      | .vnum q => jsNumToString q
      | .vnull => ""
    match parseJson text with
    | some (.jarr xs) => xs.toList
    | some _ => []
    | none => []

/-- One change-log entry `{column, from, to, changedAt}` as
`applyManualCompanyUpdates` pushes it. -/
structure ManualLogEntry where
  column : String
  fromValue : SqlValue
  toValue : JsValue
  changedAt : String
  deriving DecidableEq

/-- The JSON object a log entry becomes inside `JSON.stringify(updatedLog)`. -/
def manualLogEntryToJson (e : ManualLogEntry) : JsValue :=
  .jobj (.cons "column" (.jstr e.column)
    (.cons "from" (jsOfSql e.fromValue)
      (.cons "to" e.toValue
        (.cons "changedAt" (.jstr e.changedAt) .nil))))

/-- Rebuild a `JsArr` from a Lean list of values. -/
def jsArrOfList : List JsValue → JsArr
  | [] => .nil
  | v :: tl => .cons v (jsArrOfList tl)

/-! ## The manual company update engine (`applyManualCompanyUpdates`,
`db.js` 495-590) -/

/-- Loop state of the `for (const [field, rawValue] of Object.entries(updates))`
loop: pushed changes, the `updatePayload` object, collected messages. -/
structure UAcc where
  changes : List ManualLogEntry
  payload : List (String × JsValue)
  errors : List String
  deriving DecidableEq

/-- Object property assignment `updatePayload[columnName] = value`:
replaces in place or appends. -/
def objSetStr : List (String × JsValue) → String → JsValue → List (String × JsValue)
  | [], k, v => [(k, v)]
  | (k0, v0) :: tl, k, v =>
    if k0 = k then (k0, v) :: tl else (k0, v0) :: objSetStr tl k v

/-- The null-aware equality of the update loop (`db.js` 537-541): both
sides null counts as equal, otherwise strict equality against the stored
cell. -/
def manualValueIsSame (normalizedPrevious : SqlValue) (value : JsValue) : Bool :=
  if normalizedPrevious = .vnull && value = .jnull then true
  else strictEqSqlJs normalizedPrevious value

/-- One iteration of the update loop (`db.js` 517-552). -/
def stepEntry (existingRow : CompanyRow) (timestamp : String) (acc : UAcc)
    (entry : String × JsValue) : UAcc :=
  match resolveManualColumn entry.1 with
  | none => acc
  | some columnName =>
    match coerceManualValue columnName entry.2 with
    | .invalid msg => { acc with errors := acc.errors ++ [msg] }
    | .skip => acc
    | .persist value =>
      let normalizedPrevious := getCol existingRow columnName
      if manualValueIsSame normalizedPrevious value then acc
      else
        { changes := acc.changes ++
            [{ column := columnName, fromValue := normalizedPrevious,
               toValue := value, changedAt := timestamp }],
          payload := objSetStr acc.payload columnName value,
          errors := acc.errors }

/-- The whole update loop over `Object.entries(updates)`. -/
def processEntries (existingRow : CompanyRow) (timestamp : String)
    (entries : List (String × JsValue)) : UAcc :=
  entries.foldl (stepEntry existingRow timestamp) ⟨[], [], []⟩

/-- JavaScript numbers as arguments (so that `Number.isInteger` and
`Number.isFinite` guards can be modelled faithfully). -/
inductive JsNumber where
  | finite (q : ℚ)
  | nan
  | posInf
  | negInf
  deriving DecidableEq

/-- Model of `Number.isInteger`. -/
def JsNumber.isInteger : JsNumber → Bool
  | .finite q => q.den = 1
  | _ => false

/-- Model of `Number.isFinite`. -/
def JsNumber.isFinite : JsNumber → Bool
  | .finite _ => true
  | _ => false

/-- Outcome of a successful `applyManualCompanyUpdates` call: either the
`updated:false` no-op result or the `updated:true` result with its delta. -/
inductive ManualUpdateOutcome where
  | noChanges (message : String) (manualChangeLog : List JsValue)
  | updated (changes : List ManualLogEntry) (manualChangeLog : List JsValue) (message : String)
  deriving DecidableEq

/-- The reported `updated` flag. -/
def ManualUpdateOutcome.updatedFlag : ManualUpdateOutcome → Bool
  | .noChanges _ _ => false
  | .updated _ _ _ => true

/-- Errors thrown by `applyManualCompanyUpdates`. -/
inductive CompanyUpdateErr where
  | invalidCompanyId
  | invalidUpdates
  | notFound
  | validation (message : String)
  | bindError
  deriving DecidableEq

/-- All bind parameters of the generated `UPDATE` are bindable values. -/
def bindOk (payload : List (String × JsValue)) : Bool :=
  payload.all (fun p => (sqlOfJsPrim p.2).isSome)

/-- Apply the final `updatePayload` to the row, as the generated
`UPDATE companies SET ...` does. -/
def applyPayload (r : CompanyRow) (payload : List (String × JsValue)) : CompanyRow :=
  payload.foldl
    (fun row p =>
      match sqlOfJsPrim p.2 with
      | some sv => setColSql row p.1 sv
      | none => row)
    r

/-- Model of `applyManualCompanyUpdates` (`db.js` 495-590).
`existingRow?` is the row found by `SELECT * FROM companies WHERE id`,
`timestamp` the `new Date().toISOString()` value, `dbNow` the store's
`CURRENT_TIMESTAMP`.  Returns the thrown error or the result object,
together with the stored row afterwards. -/
def applyManualCompanyUpdates (existingRow? : Option CompanyRow)
    (companyId : JsNumber) (updates : JsValue) (timestamp : String)
    (dbNow : String) :
    Except CompanyUpdateErr ManualUpdateOutcome × Option CompanyRow :=
  if !companyId.isInteger then (.error .invalidCompanyId, existingRow?)
  else if !updates.truthy || !(updates.typeName == "object") || updates.isArray then
    (.error .invalidUpdates, existingRow?)
  else
    match existingRow? with
    | none => (.error .notFound, none)
    | some existingRow =>
      let entries := match updates with | .jobj fs => fs.entries | _ => []
      let acc := processEntries existingRow timestamp entries
      if acc.errors ≠ [] then
        (.error (.validation (String.intercalate "; " acc.errors)), some existingRow)
      else if acc.payload = [] then
        (.ok (.noChanges "No changes detected" (parseManualLog existingRow.manual_change_log)),
         some existingRow)
      else
        let baseLog := parseManualLog existingRow.manual_change_log
        let updatedLog := baseLog ++ acc.changes.map manualLogEntryToJson
        let logStr := printJson (.jarr (jsArrOfList updatedLog))
        let fullPayload := objSetStr acc.payload "manual_change_log" (.jstr logStr)
        if bindOk fullPayload then
          (.ok (.updated acc.changes updatedLog
            (⟨natRepr acc.changes.length⟩ ++ " field(s) updated")),
           some (setColSql (applyPayload existingRow fullPayload) "updated_at" (.vtext dbNow)))
        else (.error .bindError, some existingRow)

/-! ## Concrete fixtures for counterexamples and witnesses -/

/-- An existing company row (all business columns `NULL`, empty change log). -/
def sampleCompanyRow : CompanyRow :=
  { id := 1, name := .vtext "Acme", business_id := .vnull, website_url := .vnull,
    country := .vtext "FI", city := .vnull, industry_code := .vnull,
    industry_text := .vnull, employee_count := .vnull, employee_range := .vnull,
    revenue_eur := .vnull, revenue_range := .vnull, stage := .vnull,
    funding_need_type := .vnull, funding_need_min_eur := .vnull,
    funding_need_max_eur := .vnull, funding_need_summary := .vnull,
    description := .vnull, tags := .vnull, manual_change_log := .vnull,
    created_at := .vtext "2024-01-01 00:00:00", updated_at := .vtext "2024-01-01 00:00:00" }

/-- An update map whose two keys resolve to the same storage column: the
storage name `funding_need_min_eur` and its display alias
`funding_need_min_eur_guess`.  Both values are valid numbers, so the map
passes validation. -/
def aliasClashUpdates : JsValue :=
  .jobj (.cons "funding_need_min_eur" (.jnum 1)
    (.cons "funding_need_min_eur_guess" (.jnum 2) .nil))

/-! ## Claim C1 -/

/-- Counterexample to C1 as stated: `aliasClashUpdates` passes validation
(the first call succeeds and reports `updated:true`), yet the second call
with the same map also reports `updated:true` - the two keys resolve to
the same column, the first entry is compared against the stored value but
overwritten by the second, so every call flips the column between the two
values and the call sequence never reaches `updated:false`. -/
theorem c1_not_idempotent_counterexample :
    Except.map ManualUpdateOutcome.updatedFlag
      (applyManualCompanyUpdates (some sampleCompanyRow) (.finite 1)
        aliasClashUpdates "t1" "d1").1 = .ok true ∧
    Except.map ManualUpdateOutcome.updatedFlag
      (applyManualCompanyUpdates
        (applyManualCompanyUpdates (some sampleCompanyRow) (.finite 1)
          aliasClashUpdates "t1" "d1").2
        (.finite 1) aliasClashUpdates "t2" "d2").1 = .ok true := by
  decide

/-! ## Claim C2 -/

/-- Validation messages collected by the update loop, in entry order
(standalone restatement of the `validationErrors` accumulation). -/
def collectValidationErrors (entries : List (String × JsValue)) : List String :=
  entries.filterMap fun e =>
    match resolveManualColumn e.1 with
    | none => none
    | some c =>
      match coerceManualValue c e.2 with
      | .invalid msg => some msg
      | _ => none

theorem stepEntry_errors (row : CompanyRow) (ts : String) (acc : UAcc)
    (e : String × JsValue) :
    (stepEntry row ts acc e).errors = acc.errors ++
      (match resolveManualColumn e.1 with
       | none => []
       | some c =>
         match coerceManualValue c e.2 with
         | .invalid msg => [msg]
         | _ => []) := by
  rcases hres : resolveManualColumn e.1 with _ | c
  · simp [stepEntry, hres]
  · rcases hco : coerceManualValue c e.2 with _ | v | msg
    · simp [stepEntry, hres, hco]
    · simp only [stepEntry, hres, hco]
      split <;> simp
    · simp [stepEntry, hres, hco]

theorem collectValidationErrors_cons (e : String × JsValue)
    (tl : List (String × JsValue)) :
    collectValidationErrors (e :: tl) =
      (match resolveManualColumn e.1 with
       | none => []
       | some c =>
         match coerceManualValue c e.2 with
         | .invalid msg => [msg]
         | _ => []) ++ collectValidationErrors tl := by
  rw [collectValidationErrors, List.filterMap_cons]
  rcases h0 : resolveManualColumn e.1 with _ | c
  · simp [h0, collectValidationErrors]
  · rcases h1 : coerceManualValue c e.2 with _ | v | msg <;>
      simp [h0, h1, collectValidationErrors]

theorem processEntries_errors_aux (row : CompanyRow) (ts : String)
    (entries : List (String × JsValue)) (acc : UAcc) :
    (entries.foldl (stepEntry row ts) acc).errors =
      acc.errors ++ collectValidationErrors entries := by
  induction entries generalizing acc with
  | nil => simp [collectValidationErrors]
  | cons e tl ih =>
    rw [List.foldl_cons, ih, stepEntry_errors, collectValidationErrors_cons,
      List.append_assoc]

/-- The update loop collects exactly the per-entry validation messages. -/
theorem processEntries_errors (row : CompanyRow) (ts : String)
    (entries : List (String × JsValue)) :
    (processEntries row ts entries).errors = collectValidationErrors entries := by
  rw [processEntries, processEntries_errors_aux]
  rfl

theorem applyManualCompanyUpdates_error_of_errors (row : CompanyRow)
    (companyId : JsNumber) (fs : JsObj) (ts dbNow : String)
    (hid : companyId.isInteger = true)
    (herr : (processEntries row ts fs.entries).errors ≠ []) :
    applyManualCompanyUpdates (some row) companyId (.jobj fs) ts dbNow =
      (.error (.validation
        (String.intercalate "; " (processEntries row ts fs.entries).errors)), some row) := by
  rw [applyManualCompanyUpdates]
  rw [if_neg (by simp [hid])]
  rw [if_neg (by simp [JsValue.truthy, JsValue.typeName, JsValue.isArray])]
  simp only
  rw [if_pos herr]

/-- C2: whenever some field of the update map resolves to a numeric column
and carries a non-empty string that does not parse as a finite number, the
whole call fails with a `ValidationError` aggregating all offending
fields' messages (joined in entry order), each offending field's message
is in the aggregate, and the stored row is unchanged - even if other
fields of the same request were valid changes. -/
theorem c2_numeric_validation_fails_atomically (row : CompanyRow)
    (companyId : JsNumber) (fs : JsObj) (ts dbNow : String)
    (hid : companyId.isInteger = true)
    (hbad : ∃ e ∈ fs.entries, ∃ c s, resolveManualColumn e.1 = some c ∧
      c ∈ MANUAL_NUMERIC_COLUMNS ∧ e.2 = .jstr s ∧ jsTrim s ≠ "" ∧
      jsParseFiniteNumber (jsTrim s) = none) :
    applyManualCompanyUpdates (some row) companyId (.jobj fs) ts dbNow =
      (.error (.validation
        (String.intercalate "; " (collectValidationErrors fs.entries))), some row) ∧
    (∀ e ∈ fs.entries, ∀ c s, resolveManualColumn e.1 = some c →
      c ∈ MANUAL_NUMERIC_COLUMNS → e.2 = .jstr s → jsTrim s ≠ "" →
      jsParseFiniteNumber (jsTrim s) = none →
      ("Invalid numeric value for " ++ c) ∈ collectValidationErrors fs.entries) := by
  have hmsg : ∀ e ∈ fs.entries, ∀ c s, resolveManualColumn e.1 = some c →
      c ∈ MANUAL_NUMERIC_COLUMNS → e.2 = .jstr s → jsTrim s ≠ "" →
      jsParseFiniteNumber (jsTrim s) = none →
      ("Invalid numeric value for " ++ c) ∈ collectValidationErrors fs.entries := by
    intro e he c s hres hnum hval htrim hparse
    rw [collectValidationErrors, List.mem_filterMap]
    refine ⟨e, he, ?_⟩
    rw [hres, hval]
    simp [coerceManualValue, htrim, hnum, hparse]
  have herr : collectValidationErrors fs.entries ≠ [] := by
    obtain ⟨e, he, c, s, hres, hnum, hval, htrim, hparse⟩ := hbad
    have hm := hmsg e he c s hres hnum hval htrim hparse
    intro hnil
    rw [hnil] at hm
    exact absurd hm (List.not_mem_nil _)
  have herr2 : (processEntries row ts fs.entries).errors ≠ [] := by
    rw [processEntries_errors]
    exact herr
  refine ⟨?_, hmsg⟩
  rw [applyManualCompanyUpdates_error_of_errors row companyId fs ts dbNow hid herr2,
    processEntries_errors]

/-- Witness for C2: a request with one bad numeric string and one valid
name change fails with the aggregated message and leaves the row intact. -/
theorem c2_numeric_validation_fails_atomically_witness :
    JsNumber.isInteger (.finite 1) = true ∧
    applyManualCompanyUpdates (some sampleCompanyRow) (.finite 1)
      (.jobj (.cons "employee_count" (.jstr "abc")
        (.cons "name" (.jstr "NewName") .nil))) "t1" "d1" =
      (.error (.validation "Invalid numeric value for employee_count"), some sampleCompanyRow) := by
  refine ⟨by decide, ?_⟩
  have h := (c2_numeric_validation_fails_atomically sampleCompanyRow (.finite 1)
    (.cons "employee_count" (.jstr "abc") (.cons "name" (.jstr "NewName") .nil))
    "t1" "d1" (by decide)
    ⟨("employee_count", .jstr "abc"), by decide, "employee_count", "abc",
      by decide, by decide, rfl, by decide, by decide⟩).1
  rw [h]
  decide

/-! ## Claim C10 -/

/-- C10: reading a stored manual change log never fails the request: a
`NULL` (or otherwise falsy) cell, text that is not parseable JSON, and
JSON that is not an array all read as the empty log. -/
theorem c10_corrupt_log_reads_empty :
    parseManualLog .vnull = [] ∧
    (∀ s, parseJson s = none → parseManualLog (.vtext s) = []) ∧
    (∀ s v, parseJson s = some v → (∀ xs, v ≠ .jarr xs) →
      parseManualLog (.vtext s) = []) := by
  refine ⟨rfl, ?_, ?_⟩
  · intro s hs
    rw [parseManualLog]
    split
    · rfl
    · simp only [hs]
  · intro s v hs hv
    rw [parseManualLog]
    split
    · rfl
    · cases v with
      | jarr xs => exact absurd rfl (hv xs)
      | undef => simp [hs]
      | jnull => simp [hs]
      | jbool b => simp [hs]
      | jnum q => simp [hs]
      | jstr t => simp [hs]
      | jobj ofs => simp [hs]

/-- Witness for C10: unparseable text reads as the empty log. -/
theorem c10_corrupt_log_reads_empty_witness :
    parseJson "garbage" = none ∧ parseManualLog (.vtext "garbage") = [] :=
  ⟨by decide, c10_corrupt_log_reads_empty.2.1 "garbage" (by decide)⟩

/-! ## Investor reports and their change rows (`db.js` 317-356, 842-849) -/

/-- One `investor_reports` row. -/
structure ReportRow where
  id : Int
  company_id : Int
  company_name : String
  recommendation : String
  created_at : Int
  deriving DecidableEq

/-- One stored `investor_report_changes` row. -/
structure ReportChangeRow where
  report_id : Int
  json_path : String
  from_value : String
  to_value : String
  changed_at : Int
  deriving DecidableEq

/-- The report-side state: both tables. -/
structure ReportDB where
  reports : List ReportRow
  changes : List ReportChangeRow
  deriving DecidableEq

/-- Model of `selectInvestorReportByIdStmt.get`. -/
def selectInvestorReportById (db : ReportDB) (reportId : Int) : Option ReportRow :=
  db.reports.find? (fun r => r.id = reportId)

/-- Model of `updateInvestorReportStmt.run`: wholesale replacement of the
stored recommendation text of one report. -/
def updateInvestorReport (db : ReportDB) (reportId : Int) (recommendation : String) :
    ReportDB :=
  { db with
    reports := db.reports.map
      (fun r => if r.id = reportId then { r with recommendation := recommendation } else r) }

/-- Insert descending by key, later elements after earlier equal keys. -/
def insertByKeyDesc (key : α → Int) (x : α) : List α → List α
  | [] => [x]
  | y :: ys => if key y < key x then x :: y :: ys else y :: insertByKeyDesc key x ys

/-- Insertion sort descending by an integer key (model of `ORDER BY ... DESC`
and of `Array.prototype.sort` with a `b - a` comparator). -/
def sortByKeyDesc (key : α → Int) : List α → List α
  | [] => []
  | x :: xs => insertByKeyDesc key x (sortByKeyDesc key xs)

/-- One row of `selectInvestorReportChanges` as shipped to the caller. -/
structure ReportChangeView where
  jsonPath : String
  fromValue : String
  toValue : String
  changedAt : Int
  deriving DecidableEq

/-- Model of `selectInvestorReportChanges` (`db.js` 842-849): the report's
rows of the `investor_report_changes` table, most recent first. -/
def selectInvestorReportChanges (changeTable : List ReportChangeRow) (reportId : Int) :
    List ReportChangeView :=
  (sortByKeyDesc (fun r => r.changed_at)
    (changeTable.filter (fun r => r.report_id = reportId))).map
    (fun r => { jsonPath := r.json_path, fromValue := r.from_value,
                toValue := r.to_value, changedAt := r.changed_at })

/-! ## The manual investor-report update engine
(`applyManualInvestorReportUpdates`, `db.js` 915-973) -/

/-- Errors thrown by `applyManualInvestorReportUpdates`.  `insertFailure`
models a change-row insertion throwing inside the `db.transaction` block. -/
inductive ReportUpdateErr where
  | invalidReportId
  | invalidRecommendation
  | notFound
  | insertFailure
  deriving DecidableEq

/-- Result object of a successful `applyManualInvestorReportUpdates` call. -/
inductive ReportUpdateOutcome where
  | noChanges (message : String) (manualChangeLog : List ReportChangeView)
      (recommendation : JsValue)
  | updated (changes : List ChangeRow) (manualChangeLog : List ReportChangeView)
      (recommendation : JsValue)
  deriving DecidableEq

/-- The reported `updated` flag. -/
def ReportUpdateOutcome.updatedFlag : ReportUpdateOutcome → Bool
  | .noChanges _ _ _ => false
  | .updated _ _ _ => true

/-- The stored row one emitted diff row becomes. -/
def storedChangeRow (reportId : Int) (now : Int) (c : ChangeRow) : ReportChangeRow :=
  { report_id := reportId, json_path := c.jsonPath, from_value := c.fromValue,
    to_value := c.toValue, changed_at := now }

/-- Integer value of `Number(reportId)` (the guard has already checked
`Number.isInteger`, so the finite case is the only reachable one). -/
def JsNumber.toIntValue : JsNumber → Int
  | .finite q => q.num
  | _ => 0

/-- Whether the injected failure point hits one of the `n` insertions of
the current transaction. -/
def injectedFailure (failAt : Option Nat) (n : Nat) : Bool :=
  match failAt with
  | some k => k < n
  | none => false

/-- Model of `applyManualInvestorReportUpdates` (`db.js` 915-973).
`now` is the store's `CURRENT_TIMESTAMP` for the inserted rows.  `failAt`
injects a failure into the `db.transaction` insert loop: `some k` makes the
`k`-th insertion throw, in which case the transaction rolls the insertions
back - but the `UPDATE investor_reports` statement has already run outside
the transaction.  Returns the thrown error or the result, with the state
afterwards. -/
def applyManualInvestorReportUpdates (db : ReportDB) (reportId : JsNumber)
    (recommendation : JsValue) (now : Int) (failAt : Option Nat) :
    Except ReportUpdateErr ReportUpdateOutcome × ReportDB :=
  if !reportId.isInteger then (.error .invalidReportId, db)
  else if !recommendation.truthy || !(recommendation.typeName == "object") then
    (.error .invalidRecommendation, db)
  else
    match selectInvestorReportById db reportId.toIntValue with
    | none => (.error .notFound, db)
    | some existing =>
      let parsedExisting :=
        match parseJson existing.recommendation with
        | some v => v
        | none => .jobj .nil
      let changes := diffRecommendationPayloads parsedExisting recommendation
      if changes = [] then
        (.ok (.noChanges "No changes detected"
          (selectInvestorReportChanges db.changes reportId.toIntValue) parsedExisting), db)
      else
        let db1 := updateInvestorReport db reportId.toIntValue (printJson recommendation)
        let db2 := { db1 with
          changes := db1.changes ++ changes.map (storedChangeRow reportId.toIntValue now) }
        if injectedFailure failAt changes.length then (.error .insertFailure, db1)
        else (.ok (.updated changes (selectInvestorReportChanges db2.changes reportId.toIntValue)
          recommendation), db2)

/-! ## Concrete report fixture -/

/-- A stored report with payload `{}` and no change rows. -/
def sampleReportDB : ReportDB :=
  { reports := [{ id := 1, company_id := 1, company_name := "Acme",
                  recommendation := "\x7b\x7d", created_at := 0 }],
    changes := [] }

/-! ## Claim C3 -/

/-- Counterexample to C3 as stated: replacing `{}` by `{"a":1}` produces
two change rows; injecting a failure into the first insertion makes the
call fail, after which the replaced payload is observable while no change
row is - the `UPDATE` runs outside the `db.transaction` that wraps only
the insertions, so the combined write is not atomic. -/
theorem c3_not_atomic_counterexample :
    (applyManualInvestorReportUpdates sampleReportDB (.finite 1)
      (.jobj (.cons "a" (.jnum 1) .nil)) 5 (some 0)).1 = .error .insertFailure ∧
    (applyManualInvestorReportUpdates sampleReportDB (.finite 1)
      (.jobj (.cons "a" (.jnum 1) .nil)) 5 (some 0)).2.changes =
        sampleReportDB.changes ∧
    (applyManualInvestorReportUpdates sampleReportDB (.finite 1)
      (.jobj (.cons "a" (.jnum 1) .nil)) 5 (some 0)).2.reports ≠
        sampleReportDB.reports := by
  decide

/-- C3 amended: the per-leaf change-row insertions do commit atomically as
one transaction - when any insertion fails, no change row is observable -
but the wholesale payload replacement has already committed outside that
transaction, so the failed call leaves exactly the updated-payload state;
when no failure occurs, all change rows commit together with the payload. -/
theorem c3_insertions_atomic_update_outside :
    (∀ db reportId rec now failAt,
      (applyManualInvestorReportUpdates db reportId rec now failAt).1 =
        .error .insertFailure →
      (applyManualInvestorReportUpdates db reportId rec now failAt).2.changes =
        db.changes ∧
      (applyManualInvestorReportUpdates db reportId rec now failAt).2 =
        updateInvestorReport db reportId.toIntValue (printJson rec)) ∧
    (∀ db reportId rec now failAt chs log recOut,
      (applyManualInvestorReportUpdates db reportId rec now failAt).1 =
        .ok (.updated chs log recOut) →
      (applyManualInvestorReportUpdates db reportId rec now failAt).2.changes =
        db.changes ++ chs.map (storedChangeRow reportId.toIntValue now) ∧
      (applyManualInvestorReportUpdates db reportId rec now failAt).2.reports =
        (updateInvestorReport db reportId.toIntValue (printJson rec)).reports) := by
  constructor
  · intro db reportId rec now failAt
    generalize hres : applyManualInvestorReportUpdates db reportId rec now failAt = res
    simp only [applyManualInvestorReportUpdates] at hres
    repeat' split at hres
    all_goals subst hres
    all_goals intro h
    all_goals try simp at h
    exact ⟨rfl, rfl⟩
  · intro db reportId rec now failAt chs log recOut
    generalize hres : applyManualInvestorReportUpdates db reportId rec now failAt = res
    simp only [applyManualInvestorReportUpdates] at hres
    repeat' split at hres
    all_goals subst hres
    all_goals intro h
    all_goals try simp at h
    all_goals obtain ⟨rfl, rfl, rfl⟩ := h
    all_goals exact ⟨rfl, rfl⟩

/-- Witness for C3 amended: the failing insertion of the counterexample
scenario leaves the change table untouched and the payload replaced. -/
theorem c3_insertions_atomic_update_outside_witness :
    (applyManualInvestorReportUpdates sampleReportDB (.finite 1)
      (.jobj (.cons "a" (.jnum 1) .nil)) 5 (some 0)).1 = .error .insertFailure ∧
    (applyManualInvestorReportUpdates sampleReportDB (.finite 1)
      (.jobj (.cons "a" (.jnum 1) .nil)) 5 (some 0)).2.changes =
      sampleReportDB.changes :=
  ⟨by decide,
    (c3_insertions_atomic_update_outside.1 sampleReportDB (.finite 1)
      (.jobj (.cons "a" (.jnum 1) .nil)) 5 (some 0) (by decide)).1⟩

/-! ## Claim C9 -/

/-- Counterexample to C9 as stated: an array payload passes the
`typeof === "object"` guard (`Array.isArray` is never consulted here), the
call succeeds with `updated:true`, and persistence is attempted - the
stored payload afterwards is the serialized array. -/
theorem c9_array_accepted_counterexample :
    (Except.map ReportUpdateOutcome.updatedFlag
      (applyManualInvestorReportUpdates sampleReportDB (.finite 1)
        (.jarr (.cons (.jnum 1) .nil)) 5 none).1) = .ok true ∧
    (applyManualInvestorReportUpdates sampleReportDB (.finite 1)
      (.jarr (.cons (.jnum 1) .nil)) 5 none).2.reports =
      [{ id := 1, company_id := 1, company_name := "Acme",
         recommendation := "[1]", created_at := 0 }] := by
  decide

/-- C9 amended: the call rejects `null`, `undefined` and the scalar
payloads (booleans, numbers, strings) with the invalid-input error and
touches nothing; arrays, however, pass the object-type check and are
processed as payloads. -/
theorem c9_scalar_payload_rejected (db : ReportDB) (reportId : JsNumber)
    (rec : JsValue) (now : Int) (failAt : Option Nat)
    (hid : reportId.isInteger = true)
    (hscalar : rec = .jnull ∨ rec = .undef ∨ (∃ b, rec = .jbool b) ∨
      (∃ q, rec = .jnum q) ∨ (∃ s, rec = .jstr s)) :
    applyManualInvestorReportUpdates db reportId rec now failAt =
      (.error .invalidRecommendation, db) := by
  rw [applyManualInvestorReportUpdates, if_neg (by simp [hid])]
  rcases hscalar with rfl | rfl | ⟨b, rfl⟩ | ⟨q, rfl⟩ | ⟨s, rfl⟩
  · rw [if_pos (by simp [JsValue.truthy])]
  · rw [if_pos (by simp [JsValue.truthy])]
  · rw [if_pos (by simp [JsValue.typeName])]
  · rw [if_pos (by simp [JsValue.typeName])]
  · rw [if_pos (by simp [JsValue.typeName])]

/-- Witness for C9 amended: a numeric payload is rejected with no state
change. -/
theorem c9_scalar_payload_rejected_witness :
    JsNumber.isInteger (.finite 1) = true ∧
    applyManualInvestorReportUpdates sampleReportDB (.finite 1) (.jnum 7) 5 none =
      (.error .invalidRecommendation, sampleReportDB) :=
  ⟨by decide,
    c9_scalar_payload_rejected sampleReportDB (.finite 1) (.jnum 7) 5 none
      (by decide) (Or.inr (Or.inr (Or.inr (Or.inl ⟨7, rfl⟩))))⟩

/-! ## History feed (`getRecentCompanyHistory`, `db.js` 784-829) -/

/-- JavaScript `a || b` on cell values (first truthy operand, else the
second). -/
def sqlOr (a b : SqlValue) : SqlValue := if a.truthy then a else b

/-- One joined row of `selectRecentCasesStmt` (`db.js` 370-399). -/
structure CaseJoinedRow where
  case_id : Int
  company_id : Int
  case_title : SqlValue
  company_summary_text : SqlValue
  created_at : Int
  company_name : String
  business_id : SqlValue
  website_url : SqlValue
  country : SqlValue
  city : SqlValue
  industry_code : SqlValue
  industry_text : SqlValue
  employee_count : SqlValue
  employee_range : SqlValue
  revenue_eur : SqlValue
  revenue_range : SqlValue
  stage : SqlValue
  funding_need_type : SqlValue
  funding_need_min_eur : SqlValue
  funding_need_max_eur : SqlValue
  funding_need_summary : SqlValue
  description : SqlValue
  manual_change_log : SqlValue
  deriving DecidableEq

/-- The metrics object of `shapeMetricsFromRow` (`db.js` 759-782). -/
structure ShapedMetrics where
  name : String
  business_id : SqlValue
  website_url : SqlValue
  country : SqlValue
  city : SqlValue
  industry_code : SqlValue
  industry_text : SqlValue
  employee_count : SqlValue
  employee_range : SqlValue
  revenue_eur : SqlValue
  revenue_range : SqlValue
  stage : SqlValue
  funding_need_type_guess : SqlValue
  funding_need_min_eur_guess : SqlValue
  funding_need_max_eur_guess : SqlValue
  funding_need_summary_guess : SqlValue
  description : SqlValue
  summary : SqlValue
  deriving DecidableEq

/-- Model of `shapeMetricsFromRow` for a present row (the callers in scope
always pass one, so the `!row` early return is unreachable). -/
def shapeMetricsFromRow (row : CaseJoinedRow) : ShapedMetrics :=
  { name := row.company_name
    business_id := row.business_id
    website_url := row.website_url
    country := row.country
    city := row.city
    industry_code := row.industry_code
    industry_text := row.industry_text
    employee_count := row.employee_count
    employee_range := row.employee_range
    revenue_eur := row.revenue_eur
    revenue_range := row.revenue_range
    stage := row.stage
    funding_need_type_guess := row.funding_need_type
    funding_need_min_eur_guess := row.funding_need_min_eur
    funding_need_max_eur_guess := row.funding_need_max_eur
    funding_need_summary_guess := row.funding_need_summary
    description := row.description
    summary := sqlOr row.company_summary_text (sqlOr row.description .vnull) }

/-- One entry of the merged history feed: the two object shapes built by
`getRecentCompanyHistory`, distinguished by their `entryType` tag. -/
inductive HistoryEntry where
  | lookup (caseId : Int) (companyId : Int) (companyName : String)
      (createdAt : Int) (summary : SqlValue) (metrics : ShapedMetrics)
      (manualChangeLog : List JsValue)
  | investmentReport (reportId : Int) (companyId : Int) (companyName : String)
      (createdAt : Int) (investmentReport : Option JsValue)
      (manualChangeLog : List ReportChangeView)
  deriving DecidableEq

/-- The discriminant tag `entryType`. -/
def HistoryEntry.entryType : HistoryEntry → String
  | .lookup _ _ _ _ _ _ _ => "lookup"
  | .investmentReport _ _ _ _ _ _ => "investment_report"

/-- Creation timestamp used by the merge sort. -/
def HistoryEntry.createdAt : HistoryEntry → Int
  | .lookup _ _ _ t _ _ _ => t
  | .investmentReport _ _ _ t _ _ => t

/-- The lookup-case entry built for one joined case row. -/
def historyEntryOfCase (row : CaseJoinedRow) : HistoryEntry :=
  .lookup row.case_id row.company_id row.company_name row.created_at
    row.company_summary_text (shapeMetricsFromRow row)
    (parseManualLog row.manual_change_log)

/-- The report entry built for one report row (a recommendation that fails
to parse is shipped as `null`). -/
def historyEntryOfReport (changeTable : List ReportChangeRow) (row : ReportRow) :
    HistoryEntry :=
  .investmentReport row.id row.company_id row.company_name row.created_at
    (parseJson row.recommendation)
    (selectInvestorReportChanges changeTable row.id)

/-- The `safeLimit` clamp of `getRecentCompanyHistory` (`db.js` 785-787):
`Math.min(Math.max(Math.floor(limit), 1), 100)` for a finite limit, `20`
for a non-finite one, `20` as the default parameter when absent. -/
def safeHistoryLimit (limit : Option JsNumber) : Nat :=
  match limit with
  | none => 20
  | some (.finite q) => (min (max (Int.fdiv q.num q.den) 1) 100).toNat
  | some _ => 20

/-- Model of `getRecentCompanyHistory` (`db.js` 784-829): latest cases and
latest reports, each fetched newest-first with the clamped limit, mapped
to tagged entries, merged, re-sorted by creation timestamp descending and
truncated to the clamped limit. -/
def getRecentCompanyHistory (cases : List CaseJoinedRow) (reports : List ReportRow)
    (changeTable : List ReportChangeRow) (limit : Option JsNumber) :
    List HistoryEntry :=
  let safeLimit := safeHistoryLimit limit
  let caseRows := (sortByKeyDesc (fun r => r.created_at) cases).take safeLimit
  let reportRows := (sortByKeyDesc (fun r => r.created_at) reports).take safeLimit
  let mappedCases := caseRows.map historyEntryOfCase
  let mappedReports := reportRows.map (historyEntryOfReport changeTable)
  let combined := mappedCases ++ mappedReports
  (sortByKeyDesc HistoryEntry.createdAt combined).take safeLimit

/-! ### Sortedness of the insertion sort -/

theorem mem_insertByKeyDesc (key : α → Int) (x y : α) (l : List α) :
    y ∈ insertByKeyDesc key x l ↔ y = x ∨ y ∈ l := by
  induction l with
  | nil => simp [insertByKeyDesc]
  | cons z zs ih =>
    rw [insertByKeyDesc]
    split
    · simp
    · simp only [List.mem_cons, ih]
      tauto

theorem sorted_insertByKeyDesc (key : α → Int) (x : α) (l : List α)
    (h : l.Sorted (fun a b => key b ≤ key a)) :
    (insertByKeyDesc key x l).Sorted (fun a b => key b ≤ key a) := by
  induction l with
  | nil => simp [insertByKeyDesc]
  | cons z zs ih =>
    rw [insertByKeyDesc]
    rw [List.sorted_cons] at h
    split
    · rw [List.sorted_cons]
      constructor
      · intro b hb
        rcases List.mem_cons.mp hb with rfl | hb
        · omega
        · have := h.1 b hb
          omega
      · exact List.sorted_cons.mpr h
    · rw [List.sorted_cons]
      constructor
      · intro b hb
        rcases (mem_insertByKeyDesc key x b zs).mp hb with rfl | hb
        · omega
        · exact h.1 b hb
      · exact ih h.2

theorem sorted_sortByKeyDesc (key : α → Int) (l : List α) :
    (sortByKeyDesc key l).Sorted (fun a b => key b ≤ key a) := by
  induction l with
  | nil => simp [sortByKeyDesc]
  | cons x xs ih => exact sorted_insertByKeyDesc key x _ ih

theorem mem_sortByKeyDesc (key : α → Int) (x : α) (l : List α) :
    x ∈ sortByKeyDesc key l ↔ x ∈ l := by
  induction l with
  | nil => simp [sortByKeyDesc]
  | cons z zs ih =>
    rw [sortByKeyDesc, mem_insertByKeyDesc, ih, List.mem_cons]

/-! ## Claim C8 -/

/-- C8: the history feed merges the latest cases and latest investor
reports by creation timestamp descending and truncates to the clamp of
the limit into `[1,100]` (`20` when the limit is absent or not finite):
the result is sorted newest-first, its length is at most the clamped
limit, every entry is tagged `"lookup"` or `"investment_report"`, and
every entry is the mapped image of an input case row or report row with
the matching tag. -/
theorem c8_recent_history_clamped_sorted_tagged (cases : List CaseJoinedRow)
    (reports : List ReportRow) (changeTable : List ReportChangeRow)
    (limit : Option JsNumber) :
    (getRecentCompanyHistory cases reports changeTable limit).length ≤
      safeHistoryLimit limit ∧
    (getRecentCompanyHistory cases reports changeTable limit).Sorted
      (fun a b => b.createdAt ≤ a.createdAt) ∧
    (∀ e ∈ getRecentCompanyHistory cases reports changeTable limit,
      (∃ row ∈ cases, e = historyEntryOfCase row ∧ e.entryType = "lookup") ∨
      (∃ row ∈ reports, e = historyEntryOfReport changeTable row ∧
        e.entryType = "investment_report")) ∧
    1 ≤ safeHistoryLimit limit ∧ safeHistoryLimit limit ≤ 100 ∧
    safeHistoryLimit none = 20 ∧
    (∀ l, l.isFinite = false → safeHistoryLimit (some l) = 20) ∧
    (∀ q, safeHistoryLimit (some (.finite q)) =
      (min (max (Int.fdiv q.num q.den) 1) 100).toNat) := by
  refine ⟨?_, ?_, ?_, ?_, ?_, rfl, ?_, fun q => rfl⟩
  · rw [getRecentCompanyHistory]
    exact (List.length_take_le _ _).trans (le_refl _)
  · rw [getRecentCompanyHistory]
    exact (sorted_sortByKeyDesc _ _).sublist (List.take_sublist _ _)
  · intro e he
    rw [getRecentCompanyHistory] at he
    have he2 := (mem_sortByKeyDesc _ _ _).mp (List.take_subset _ _ he)
    rcases List.mem_append.mp he2 with hc | hr
    · obtain ⟨row, hrow, rfl⟩ := List.mem_map.mp hc
      exact Or.inl ⟨row, (mem_sortByKeyDesc _ _ _).mp (List.take_subset _ _ hrow),
        rfl, rfl⟩
    · obtain ⟨row, hrow, rfl⟩ := List.mem_map.mp hr
      exact Or.inr ⟨row, (mem_sortByKeyDesc _ _ _).mp (List.take_subset _ _ hrow),
        rfl, rfl⟩
  · rcases limit with _ | l
    · decide
    · rcases l with q | _ | _ | _
      · simp only [safeHistoryLimit]
        omega
      · decide
      · decide
      · decide
  · rcases limit with _ | l
    · decide
    · rcases l with q | _ | _ | _
      · simp only [safeHistoryLimit]
        omega
      · decide
      · decide
      · decide
  · intro l hl
    rcases l with q | _ | _ | _
    · simp [JsNumber.isFinite] at hl
    · rfl
    · rfl
    · rfl

/-- Witness for C8: concrete feed with three cases and four reports at
limit 5 - five entries, newest first, each tagged. -/
theorem c8_recent_history_clamped_sorted_tagged_witness :
    (getRecentCompanyHistory
      [{ case_id := 1, company_id := 1, case_title := .vnull,
         company_summary_text := .vtext "s1", created_at := 10,
         company_name := "A", business_id := .vnull, website_url := .vnull,
         country := .vnull, city := .vnull, industry_code := .vnull,
         industry_text := .vnull, employee_count := .vnull,
         employee_range := .vnull, revenue_eur := .vnull,
         revenue_range := .vnull, stage := .vnull, funding_need_type := .vnull,
         funding_need_min_eur := .vnull, funding_need_max_eur := .vnull,
         funding_need_summary := .vnull, description := .vnull,
         manual_change_log := .vnull }]
      [{ id := 7, company_id := 1, company_name := "A",
         recommendation := "\x7b\x7d", created_at := 20 }]
      [] (some (.finite 5))).length ≤ safeHistoryLimit (some (.finite 5)) ∧
    safeHistoryLimit (some (.finite 5)) = 5 :=
  ⟨(c8_recent_history_clamped_sorted_tagged _ _ _ (some (.finite 5))).1, by decide⟩

/-! ## Column read/write lemmas for the generated `UPDATE` -/

theorem getCol_setColSql_self (r : CompanyRow) (v : SqlValue) (c : String)
    (hc : c ∈ MANUAL_EDITABLE_COLUMNS) :
    getCol (setColSql r c v) c = v := by
  simp only [MANUAL_EDITABLE_COLUMNS] at hc
  fin_cases hc <;> simp [getCol, setColSql]

theorem getCol_setColSql_ne (r : CompanyRow) (v : SqlValue) (c c2 : String)
    (hc : c ∈ MANUAL_EDITABLE_COLUMNS) (hne : c ≠ c2) :
    getCol (setColSql r c2 v) c = getCol r c := by
  have hne2 : ∀ a : String, c = a → ¬ (c2 = a) := by
    intro a ha hb
    exact hne (ha.trans hb.symm)
  simp only [MANUAL_EDITABLE_COLUMNS] at hc
  fin_cases hc <;> simp [getCol, setColSql, hne2 _ rfl]

theorem mcl_setColSql_of_ne (r : CompanyRow) (v : SqlValue) (c2 : String)
    (hne : c2 ≠ "manual_change_log") :
    (setColSql r c2 v).manual_change_log = r.manual_change_log := by
  simp [setColSql, hne]

theorem mcl_setColSql_self (r : CompanyRow) (v : SqlValue) :
    (setColSql r "manual_change_log" v).manual_change_log = v := by
  simp [setColSql]

theorem resolveManualColumn_mem_editable (field c : String)
    (h : resolveManualColumn field = some c) : c ∈ MANUAL_EDITABLE_COLUMNS := by
  rcases hf : MANUAL_FIELD_NAME_MAP.find? (fun p => p.1 = field) with _ | p
  · simp only [resolveManualColumn, hf] at h
    split at h
    · injection h with h
      subst h
      assumption
    · exact Option.noConfusion h
  · simp only [resolveManualColumn, hf] at h
    have hp := List.mem_of_find?_eq_some hf
    injection h with h
    subst h
    simp only [MANUAL_FIELD_NAME_MAP] at hp
    fin_cases hp <;> decide

/-! ## Payload object lemmas -/

theorem find?_objSetStr_self (l : List (String × JsValue)) (k : String) (v : JsValue) :
    (objSetStr l k v).find? (fun p => p.1 = k) = some (k, v) := by
  induction l with
  | nil => simp [objSetStr, List.find?]
  | cons p tl ih =>
    obtain ⟨k0, v0⟩ := p
    rw [objSetStr]
    split
    · rename_i h
      subst h
      simp [List.find?]
    · rename_i h
      simp [List.find?_cons, h, ih]

theorem find?_objSetStr_ne (l : List (String × JsValue)) (k c : String) (v : JsValue)
    (hne : k ≠ c) :
    (objSetStr l k v).find? (fun p => p.1 = c) = l.find? (fun p => p.1 = c) := by
  induction l with
  | nil => simp [objSetStr, List.find?, hne]
  | cons p tl ih =>
    obtain ⟨k0, v0⟩ := p
    rw [objSetStr]
    split
    · rename_i h
      subst h
      simp [List.find?_cons, hne]
    · simp only [List.find?_cons]
      split
      · rfl
      · exact ih

theorem mem_objSetStr (l : List (String × JsValue)) (k : String) (v : JsValue)
    (p : String × JsValue) (hp : p ∈ objSetStr l k v) : p.1 = k ∨ p ∈ l := by
  induction l with
  | nil =>
    simp only [objSetStr, List.mem_singleton] at hp
    subst hp
    exact Or.inl rfl
  | cons q tl ih =>
    obtain ⟨k0, v0⟩ := q
    rw [objSetStr] at hp
    split at hp
    · rename_i h
      rcases List.mem_cons.mp hp with rfl | hp
      · exact Or.inl h
      · exact Or.inr (List.mem_cons_of_mem _ hp)
    · rcases List.mem_cons.mp hp with rfl | hp
      · exact Or.inr (List.mem_cons_self _ _)
      · rcases ih hp with h | h
        · exact Or.inl h
        · exact Or.inr (List.mem_cons_of_mem _ h)

theorem keys_objSetStr (l : List (String × JsValue)) (k : String) (v : JsValue) :
    (objSetStr l k v).map Prod.fst = if k ∈ l.map Prod.fst then l.map Prod.fst
      else l.map Prod.fst ++ [k] := by
  induction l with
  | nil => simp [objSetStr]
  | cons p tl ih =>
    obtain ⟨k0, v0⟩ := p
    rw [objSetStr]
    split
    · rename_i h
      subst h
      simp
    · rename_i h
      simp only [List.map_cons, ih]
      by_cases hk : k ∈ tl.map Prod.fst
      · rw [if_pos hk, if_pos (by simp [hk])]
      · rw [if_neg hk, if_neg (by simp [hk, Ne.symm h])]
        rfl

theorem nodup_keys_objSetStr (l : List (String × JsValue)) (k : String) (v : JsValue)
    (h : (l.map Prod.fst).Nodup) : ((objSetStr l k v).map Prod.fst).Nodup := by
  rw [keys_objSetStr]
  split
  · exact h
  · rename_i hk
    simp only [List.nodup_append, List.nodup_singleton]
    refine ⟨h, trivial, fun a ha => ?_⟩
    simp only [List.mem_singleton]
    rintro rfl
    exact hk ha

theorem objSetStr_eq_append (l : List (String × JsValue)) (k : String) (v : JsValue)
    (h : k ∉ l.map Prod.fst) : objSetStr l k v = l ++ [(k, v)] := by
  induction l with
  | nil => rfl
  | cons p tl ih =>
    obtain ⟨k0, v0⟩ := p
    have h1 : ¬ (k0 = k) := fun hh => h (by simp [List.map_cons]; exact Or.inl hh.symm)
    have h2 : k ∉ tl.map Prod.fst := fun hh => h (by simp [List.map_cons, hh])
    rw [objSetStr, if_neg h1]
    simp only [List.cons_append, List.cons.injEq, true_and]
    exact ih h2

/-! ## Update-loop payload lemmas -/

theorem stepEntry_payload_find_ne (row : CompanyRow) (ts : String) (acc : UAcc)
    (e : String × JsValue) (c : String)
    (h0 : resolveManualColumn e.1 ≠ some c) :
    ((stepEntry row ts acc e).payload).find? (fun p => p.1 = c) =
      acc.payload.find? (fun p => p.1 = c) := by
  rcases hres : resolveManualColumn e.1 with _ | c2
  · simp [stepEntry, hres]
  · have hcc : c2 ≠ c := fun hh => h0 (hh ▸ hres)
    rcases hco : coerceManualValue c2 e.2 with _ | v | m
    · simp [stepEntry, hres, hco]
    · simp only [stepEntry, hres, hco]
      split
      · rfl
      · exact find?_objSetStr_ne _ _ _ _ hcc
    · simp [stepEntry, hres, hco]

theorem foldl_payload_no_write (row : CompanyRow) (ts : String)
    (entries : List (String × JsValue)) (acc : UAcc) (c : String)
    (h : ∀ e ∈ entries, resolveManualColumn e.1 ≠ some c) :
    ((entries.foldl (stepEntry row ts) acc).payload).find? (fun p => p.1 = c) =
      acc.payload.find? (fun p => p.1 = c) := by
  induction entries generalizing acc with
  | nil => rfl
  | cons e tl ih =>
    rw [List.foldl_cons, ih _ (fun e2 he2 => h e2 (List.mem_cons_of_mem _ he2))]
    exact stepEntry_payload_find_ne row ts acc e c (h e (List.mem_cons_self _ _))

theorem foldl_payload_write (row : CompanyRow) (ts : String)
    (entries : List (String × JsValue)) (e : String × JsValue) (c : String) (v : JsValue)
    (hres : resolveManualColumn e.1 = some c)
    (hco : coerceManualValue c e.2 = .persist v) :
    ∀ acc : UAcc,
      entries.Pairwise (fun a b => ∀ c0, resolveManualColumn a.1 = some c0 →
        resolveManualColumn b.1 ≠ some c0) →
      e ∈ entries →
      ((entries.foldl (stepEntry row ts) acc).payload).find? (fun p => p.1 = c) =
        (if manualValueIsSame (getCol row c) v then
          acc.payload.find? (fun p => p.1 = c)
        else some (c, v)) := by
  induction entries with
  | nil =>
    intro acc _ he
    exact absurd he (List.not_mem_nil _)
  | cons e0 tl ih =>
    intro acc hPW he
    rw [List.pairwise_cons] at hPW
    rcases List.mem_cons.mp he with rfl | hetl
    · have htl : ∀ e2 ∈ tl, resolveManualColumn e2.1 ≠ some c :=
        fun e2 he2 => hPW.1 e2 he2 c hres
      rw [List.foldl_cons, foldl_payload_no_write row ts tl _ c htl]
      simp only [stepEntry, hres, hco]
      split
      · rfl
      · exact find?_objSetStr_self _ _ _
    · have h0 : resolveManualColumn e0.1 ≠ some c :=
        fun hh => (hPW.1 e hetl c hh) hres
      rw [List.foldl_cons, ih _ hPW.2 hetl,
        stepEntry_payload_find_ne row ts acc e0 c h0]

theorem foldl_payload_keys_editable (row : CompanyRow) (ts : String)
    (entries : List (String × JsValue)) :
    ∀ acc : UAcc,
      (∀ p ∈ acc.payload, p.1 ∈ MANUAL_EDITABLE_COLUMNS) →
      ∀ p ∈ (entries.foldl (stepEntry row ts) acc).payload,
        p.1 ∈ MANUAL_EDITABLE_COLUMNS := by
  induction entries with
  | nil => exact fun acc h => h
  | cons e tl ih =>
    intro acc hacc
    rw [List.foldl_cons]
    refine ih _ ?_
    rcases hres : resolveManualColumn e.1 with _ | c2
    · simpa [stepEntry, hres] using hacc
    · rcases hco : coerceManualValue c2 e.2 with _ | v | m
      · simpa [stepEntry, hres, hco] using hacc
      · simp only [stepEntry, hres, hco]
        split
        · exact hacc
        · intro p hp
          rcases mem_objSetStr _ _ _ _ hp with h | h
          · exact h ▸ resolveManualColumn_mem_editable e.1 c2 hres
          · exact hacc p h
      · simpa [stepEntry, hres, hco] using hacc

theorem foldl_payload_keys_nodup (row : CompanyRow) (ts : String)
    (entries : List (String × JsValue)) :
    ∀ acc : UAcc,
      (acc.payload.map Prod.fst).Nodup →
      (((entries.foldl (stepEntry row ts) acc).payload).map Prod.fst).Nodup := by
  induction entries with
  | nil => exact fun acc h => h
  | cons e tl ih =>
    intro acc hacc
    rw [List.foldl_cons]
    refine ih _ ?_
    rcases hres : resolveManualColumn e.1 with _ | c2
    · simpa [stepEntry, hres] using hacc
    · rcases hco : coerceManualValue c2 e.2 with _ | v | m
      · simpa [stepEntry, hres, hco] using hacc
      · simp only [stepEntry, hres, hco]
        split
        · exact hacc
        · exact nodup_keys_objSetStr _ _ _ hacc
      · simpa [stepEntry, hres, hco] using hacc

/-! ## Reading back an applied payload -/

theorem getCol_applyPayload_no_key (r : CompanyRow) (l : List (String × JsValue))
    (c : String) (hc : c ∈ MANUAL_EDITABLE_COLUMNS)
    (h : ∀ p ∈ l, p.1 ≠ c) :
    getCol (applyPayload r l) c = getCol r c := by
  induction l generalizing r with
  | nil => rfl
  | cons p tl ih =>
    have hstep : applyPayload r (p :: tl) =
        applyPayload (match sqlOfJsPrim p.2 with
          | some sv => setColSql r p.1 sv
          | none => r) tl := rfl
    rw [hstep]
    rcases hs : sqlOfJsPrim p.2 with _ | sv
    · simp only [hs]
      exact ih r (fun q hq => h q (List.mem_cons_of_mem _ hq))
    · simp only [hs]
      rw [ih _ (fun q hq => h q (List.mem_cons_of_mem _ hq))]
      exact getCol_setColSql_ne r sv c p.1 hc (Ne.symm (h p (List.mem_cons_self _ _)))

theorem getCol_applyPayload_found (r : CompanyRow) (l : List (String × JsValue))
    (c : String) (v : JsValue) (sv : SqlValue)
    (hc : c ∈ MANUAL_EDITABLE_COLUMNS)
    (hnodup : (l.map Prod.fst).Nodup)
    (hfind : l.find? (fun p => p.1 = c) = some (c, v))
    (hsv : sqlOfJsPrim v = some sv) :
    getCol (applyPayload r l) c = sv := by
  induction l generalizing r with
  | nil => simp [List.find?] at hfind
  | cons p tl ih =>
    obtain ⟨k0, v0⟩ := p
    simp only [List.map_cons, List.nodup_cons] at hnodup
    have hstep : applyPayload r ((k0, v0) :: tl) =
        applyPayload (match sqlOfJsPrim v0 with
          | some sv2 => setColSql r k0 sv2
          | none => r) tl := rfl
    by_cases hk : k0 = c
    · subst hk
      rw [List.find?_cons_of_pos _ (by simp)] at hfind
      injection hfind with hfind
      injection hfind with h1 h2
      subst h2
      rw [hstep]
      simp only [hsv]
      rw [getCol_applyPayload_no_key _ tl k0 hc
        (fun q hq hq1 => hnodup.1 (hq1 ▸ List.mem_map_of_mem Prod.fst hq))]
      exact getCol_setColSql_self r sv k0 hc
    · rw [List.find?_cons_of_neg _ (by simp [hk])] at hfind
      rw [hstep]
      rcases hs : sqlOfJsPrim v0 with _ | sv2
      · simp only [hs]
        exact ih r hnodup.2 hfind
      · simp only [hs]
        exact ih _ hnodup.2 hfind

/-! ## Branch lemmas for `applyManualCompanyUpdates` -/

theorem applyPayload_append (r : CompanyRow) (l1 l2 : List (String × JsValue)) :
    applyPayload r (l1 ++ l2) = applyPayload (applyPayload r l1) l2 := by
  simp [applyPayload, List.foldl_append]

theorem applyManual_invalid_id (existingRow? : Option CompanyRow) (companyId : JsNumber)
    (updates : JsValue) (ts now : String) (hid : companyId.isInteger = false) :
    applyManualCompanyUpdates existingRow? companyId updates ts now =
      (.error .invalidCompanyId, existingRow?) := by
  rw [applyManualCompanyUpdates.eq_def, if_pos (by simp [hid])]

theorem applyManual_noChanges_case (row : CompanyRow) (companyId : JsNumber)
    (fs : JsObj) (ts now : String) (hid : companyId.isInteger = true)
    (herr : (processEntries row ts fs.entries).errors = [])
    (hpay : (processEntries row ts fs.entries).payload = []) :
    applyManualCompanyUpdates (some row) companyId (.jobj fs) ts now =
      (.ok (.noChanges "No changes detected" (parseManualLog row.manual_change_log)),
        some row) := by
  rw [applyManualCompanyUpdates]
  rw [if_neg (by simp [hid])]
  rw [if_neg (by simp [JsValue.truthy, JsValue.typeName, JsValue.isArray])]
  simp only
  rw [if_neg (by simp [herr]), if_pos hpay]

theorem applyManual_bind_fail (row : CompanyRow) (companyId : JsNumber)
    (fs : JsObj) (ts now : String) (hid : companyId.isInteger = true)
    (herr : (processEntries row ts fs.entries).errors = [])
    (hpay : (processEntries row ts fs.entries).payload ≠ [])
    (hbind : bindOk (objSetStr (processEntries row ts fs.entries).payload
      "manual_change_log" (.jstr (printJson (.jarr (jsArrOfList
        (parseManualLog row.manual_change_log ++
          (processEntries row ts fs.entries).changes.map manualLogEntryToJson)))))) =
      false) :
    applyManualCompanyUpdates (some row) companyId (.jobj fs) ts now =
      (.error .bindError, some row) := by
  rw [applyManualCompanyUpdates]
  rw [if_neg (by simp [hid])]
  rw [if_neg (by simp [JsValue.truthy, JsValue.typeName, JsValue.isArray])]
  simp only
  rw [if_neg (by simp [herr]), if_neg hpay, if_neg (by simp [hbind])]

theorem applyManual_updated_case (row : CompanyRow) (companyId : JsNumber)
    (fs : JsObj) (ts now : String) (hid : companyId.isInteger = true)
    (herr : (processEntries row ts fs.entries).errors = [])
    (hpay : (processEntries row ts fs.entries).payload ≠ [])
    (hbind : bindOk (objSetStr (processEntries row ts fs.entries).payload
      "manual_change_log" (.jstr (printJson (.jarr (jsArrOfList
        (parseManualLog row.manual_change_log ++
          (processEntries row ts fs.entries).changes.map manualLogEntryToJson)))))) =
      true) :
    applyManualCompanyUpdates (some row) companyId (.jobj fs) ts now =
      (.ok (.updated (processEntries row ts fs.entries).changes
        (parseManualLog row.manual_change_log ++
          (processEntries row ts fs.entries).changes.map manualLogEntryToJson)
        (⟨natRepr (processEntries row ts fs.entries).changes.length⟩ ++
          " field(s) updated")),
       some (setColSql (applyPayload row
         (objSetStr (processEntries row ts fs.entries).payload "manual_change_log"
           (.jstr (printJson (.jarr (jsArrOfList
             (parseManualLog row.manual_change_log ++
               (processEntries row ts fs.entries).changes.map manualLogEntryToJson)))))))
         "updated_at" (.vtext now))) := by
  rw [applyManualCompanyUpdates]
  rw [if_neg (by simp [hid])]
  rw [if_neg (by simp [JsValue.truthy, JsValue.typeName, JsValue.isArray])]
  simp only
  rw [if_neg (by simp [herr]), if_neg hpay, if_pos hbind]

/-! ## The second application skips every entry -/

theorem manualValueIsSame_of_prim (v : JsValue) (sv : SqlValue)
    (hsv : sqlOfJsPrim v = some sv) : manualValueIsSame sv v = true := by
  cases v with
  | jnull =>
    injection hsv with h
    subst h
    rfl
  | jnum q =>
    injection hsv with h
    subst h
    simp [manualValueIsSame, strictEqSqlJs]
  | jstr s =>
    injection hsv with h
    subst h
    simp [manualValueIsSame, strictEqSqlJs]
  | undef => exact absurd hsv (by simp [sqlOfJsPrim])
  | jbool b => exact absurd hsv (by simp [sqlOfJsPrim])
  | jarr xs => exact absurd hsv (by simp [sqlOfJsPrim])
  | jobj ofs => exact absurd hsv (by simp [sqlOfJsPrim])

theorem no_invalid_of_collect_nil (entries : List (String × JsValue))
    (h : collectValidationErrors entries = []) :
    ∀ e ∈ entries, ∀ c, resolveManualColumn e.1 = some c →
      ∀ m, coerceManualValue c e.2 ≠ .invalid m := by
  intro e he c hres m hco
  have hm : m ∈ collectValidationErrors entries := by
    rw [collectValidationErrors, List.mem_filterMap]
    exact ⟨e, he, by simp [hres, hco]⟩
  rw [h] at hm
  exact absurd hm (List.not_mem_nil _)

theorem foldl_stepEntry_id (row : CompanyRow) (ts : String)
    (entries : List (String × JsValue))
    (h : ∀ acc e, e ∈ entries → stepEntry row ts acc e = acc) :
    ∀ acc, entries.foldl (stepEntry row ts) acc = acc := by
  induction entries with
  | nil => intro acc; rfl
  | cons e tl ih =>
    intro acc
    rw [List.foldl_cons, h acc e (List.mem_cons_self _ _)]
    exact ih (fun acc2 e2 he2 => h acc2 e2 (List.mem_cons_of_mem _ he2)) acc

theorem processEntries_all_same_nil (row1 : CompanyRow) (ts2 : String)
    (entries : List (String × JsValue))
    (hcollect : collectValidationErrors entries = [])
    (hread : ∀ e ∈ entries, ∀ c v, resolveManualColumn e.1 = some c →
      coerceManualValue c e.2 = .persist v →
      manualValueIsSame (getCol row1 c) v = true) :
    processEntries row1 ts2 entries = ⟨[], [], []⟩ := by
  rw [processEntries]
  apply foldl_stepEntry_id
  intro acc e he
  rcases hres : resolveManualColumn e.1 with _ | c
  · simp [stepEntry, hres]
  · rcases hco : coerceManualValue c e.2 with _ | v | m
    · simp [stepEntry, hres, hco]
    · simp only [stepEntry, hres, hco]
      rw [if_pos (hread e he c v hres hco)]
    · exact absurd hco (no_invalid_of_collect_nil entries hcollect e he c hres m)

/-- C1 amended: for an existing company record and an update map whose
fields resolve to pairwise distinct storage columns (no column named
together with one of its aliases), a successful first call makes the
second call with the same map report `updated:false` ("No changes
detected") and leave the stored record - and hence its manual change
log - unchanged.  (Without the distinct-resolution hypothesis the claim
fails, see the counterexample.) -/
theorem c1_second_call_reports_no_changes (row : CompanyRow) (companyId : JsNumber)
    (fs : JsObj) (ts1 now1 ts2 now2 : String)
    (hPW : fs.entries.Pairwise (fun a b => ∀ c, resolveManualColumn a.1 = some c →
      resolveManualColumn b.1 ≠ some c))
    (hok : (applyManualCompanyUpdates (some row) companyId (.jobj fs) ts1 now1).1.isOk =
      true) :
    ∃ row1,
      (applyManualCompanyUpdates (some row) companyId (.jobj fs) ts1 now1).2 =
        some row1 ∧
      applyManualCompanyUpdates (some row1) companyId (.jobj fs) ts2 now2 =
        (.ok (.noChanges "No changes detected" (parseManualLog row1.manual_change_log)),
          some row1) := by
  by_cases hid : companyId.isInteger = true
  case neg =>
    have hid2 : companyId.isInteger = false := by
      cases h2 : companyId.isInteger
      · rfl
      · exact absurd h2 hid
    rw [applyManual_invalid_id (some row) companyId (.jobj fs) ts1 now1 hid2] at hok
    exact Bool.noConfusion hok
  case pos =>
  have herr0 : (processEntries row ts1 fs.entries).errors = [] := by
    by_contra herr
    rw [applyManualCompanyUpdates_error_of_errors row companyId fs ts1 now1 hid herr] at hok
    exact Bool.noConfusion hok
  have hcollect : collectValidationErrors fs.entries = [] := by
    rw [← processEntries_errors row ts1]
    exact herr0
  by_cases hpay : (processEntries row ts1 fs.entries).payload = []
  · refine ⟨row, ?_, ?_⟩
    · rw [applyManual_noChanges_case row companyId fs ts1 now1 hid herr0 hpay]
    · have hread : ∀ e ∈ fs.entries, ∀ c v, resolveManualColumn e.1 = some c →
          coerceManualValue c e.2 = .persist v →
          manualValueIsSame (getCol row c) v = true := by
        intro e he c v hres hco
        by_contra hsame0
        have hsame : manualValueIsSame (getCol row c) v = false := by
          cases hs2 : manualValueIsSame (getCol row c) v
          · rfl
          · exact absurd hs2 hsame0
        have hw := foldl_payload_write row ts1 fs.entries e c v hres hco ⟨[], [], []⟩ hPW he
        rw [if_neg (by simp [hsame])] at hw
        have hw2 : ((processEntries row ts1 fs.entries).payload).find?
            (fun p => p.1 = c) = some (c, v) := hw
        rw [hpay] at hw2
        simp [List.find?] at hw2
      have hnil := processEntries_all_same_nil row ts2 fs.entries hcollect hread
      have herr2 : (processEntries row ts2 fs.entries).errors = [] := by rw [hnil]
      have hpay2 : (processEntries row ts2 fs.entries).payload = [] := by rw [hnil]
      exact applyManual_noChanges_case row companyId fs ts2 now2 hid herr2 hpay2
  · by_cases hbind : bindOk (objSetStr (processEntries row ts1 fs.entries).payload
      "manual_change_log" (.jstr (printJson (.jarr (jsArrOfList
        (parseManualLog row.manual_change_log ++
          (processEntries row ts1 fs.entries).changes.map manualLogEntryToJson)))))) = true
    case neg =>
      have hb : bindOk (objSetStr (processEntries row ts1 fs.entries).payload
          "manual_change_log" (.jstr (printJson (.jarr (jsArrOfList
            (parseManualLog row.manual_change_log ++
              (processEntries row ts1 fs.entries).changes.map manualLogEntryToJson)))))) =
          false := by
        cases hbb : bindOk (objSetStr (processEntries row ts1 fs.entries).payload
          "manual_change_log" (.jstr (printJson (.jarr (jsArrOfList
            (parseManualLog row.manual_change_log ++
              (processEntries row ts1 fs.entries).changes.map manualLogEntryToJson))))))
        · rfl
        · exact absurd hbb hbind
      rw [applyManual_bind_fail row companyId fs ts1 now1 hid herr0 hpay hb] at hok
      exact Bool.noConfusion hok
    case pos =>
    have hfst := applyManual_updated_case row companyId fs ts1 now1 hid herr0 hpay hbind
    have hkeys_ed : ∀ p ∈ (processEntries row ts1 fs.entries).payload,
        p.1 ∈ MANUAL_EDITABLE_COLUMNS :=
      foldl_payload_keys_editable row ts1 fs.entries ⟨[], [], []⟩
        (fun p hp => absurd hp (List.not_mem_nil _))
    have hnodup : (((processEntries row ts1 fs.entries).payload).map Prod.fst).Nodup :=
      foldl_payload_keys_nodup row ts1 fs.entries ⟨[], [], []⟩ (by simp)
    have hmcl_notin : "manual_change_log" ∉
        ((processEntries row ts1 fs.entries).payload).map Prod.fst := by
      intro hmem
      obtain ⟨p, hp, hp1⟩ := List.mem_map.mp hmem
      have hed := hkeys_ed p hp
      rw [hp1] at hed
      revert hed
      decide
    have happ : objSetStr (processEntries row ts1 fs.entries).payload "manual_change_log"
        (.jstr (printJson (.jarr (jsArrOfList (parseManualLog row.manual_change_log ++
          (processEntries row ts1 fs.entries).changes.map manualLogEntryToJson))))) =
        (processEntries row ts1 fs.entries).payload ++
          [("manual_change_log", .jstr (printJson (.jarr (jsArrOfList
            (parseManualLog row.manual_change_log ++
              (processEntries row ts1 fs.entries).changes.map manualLogEntryToJson)))))] :=
      objSetStr_eq_append _ _ _ hmcl_notin
    have hsingle : ∀ (Y : CompanyRow) (s : String),
        applyPayload Y [("manual_change_log", JsValue.jstr s)] =
          setColSql Y "manual_change_log" (.vtext s) := fun Y s => rfl
    refine ⟨setColSql (applyPayload row
        (objSetStr (processEntries row ts1 fs.entries).payload "manual_change_log"
          (.jstr (printJson (.jarr (jsArrOfList
            (parseManualLog row.manual_change_log ++
              (processEntries row ts1 fs.entries).changes.map manualLogEntryToJson)))))))
        "updated_at" (.vtext now1), ?_, ?_⟩
    · rw [hfst]
    · have hread : ∀ e ∈ fs.entries, ∀ c v, resolveManualColumn e.1 = some c →
          coerceManualValue c e.2 = .persist v →
          manualValueIsSame (getCol (setColSql (applyPayload row
            (objSetStr (processEntries row ts1 fs.entries).payload "manual_change_log"
              (.jstr (printJson (.jarr (jsArrOfList
                (parseManualLog row.manual_change_log ++
                  (processEntries row ts1 fs.entries).changes.map manualLogEntryToJson)))))))
            "updated_at" (.vtext now1)) c) v = true := by
        intro e he c v hres hco
        have hc := resolveManualColumn_mem_editable e.1 c hres
        have hc_upd : c ≠ "updated_at" := by
          intro hh
          rw [hh] at hc
          revert hc
          decide
        have hc_mcl : c ≠ "manual_change_log" := by
          intro hh
          rw [hh] at hc
          revert hc
          decide
        rw [getCol_setColSql_ne _ _ c "updated_at" hc hc_upd, happ, applyPayload_append,
          hsingle, getCol_setColSql_ne _ _ c "manual_change_log" hc hc_mcl]
        by_cases hsame0 : manualValueIsSame (getCol row c) v = true
        · have hw := foldl_payload_write row ts1 fs.entries e c v hres hco ⟨[], [], []⟩ hPW he
          rw [if_pos hsame0] at hw
          have hw2 : ((processEntries row ts1 fs.entries).payload).find?
              (fun p => p.1 = c) = none := hw
          have hnone : ∀ p ∈ (processEntries row ts1 fs.entries).payload, p.1 ≠ c := by
            intro p hp
            have hn := List.find?_eq_none.mp hw2 p hp
            simpa using hn
          rw [getCol_applyPayload_no_key row _ c hc hnone]
          exact hsame0
        · have hsame : manualValueIsSame (getCol row c) v = false := by
            cases hs2 : manualValueIsSame (getCol row c) v
            · rfl
            · exact absurd hs2 hsame0
          have hw := foldl_payload_write row ts1 fs.entries e c v hres hco ⟨[], [], []⟩ hPW he
          rw [if_neg (by simp [hsame])] at hw
          have hw2 : ((processEntries row ts1 fs.entries).payload).find?
              (fun p => p.1 = c) = some (c, v) := hw
          have hmem : (c, v) ∈ (processEntries row ts1 fs.entries).payload :=
            List.mem_of_find?_eq_some hw2
          have hbind2 := hbind
          rw [happ] at hbind2
          rw [bindOk, List.all_append, Bool.and_eq_true] at hbind2
          have hbindv : (sqlOfJsPrim v).isSome = true := by
            have hall := List.all_eq_true.mp hbind2.1 ⟨c, v⟩ hmem
            simpa using hall
          obtain ⟨sv, hsv⟩ := Option.isSome_iff_exists.mp hbindv
          rw [getCol_applyPayload_found row _ c v sv hc hnodup hw2 hsv]
          exact manualValueIsSame_of_prim v sv hsv
      have hnil := processEntries_all_same_nil _ ts2 fs.entries hcollect hread
      have herr2 := congrArg UAcc.errors hnil
      have hpay2 := congrArg UAcc.payload hnil
      exact applyManual_noChanges_case _ companyId fs ts2 now2 hid herr2 hpay2

/-- Witness for C1 amended: a one-field update map (fields trivially
resolve to distinct columns), first call succeeds, so the theorem applies. -/
theorem c1_second_call_reports_no_changes_witness :
    (JsObj.entries (.cons "city" (.jstr "Espoo") .nil)).Pairwise
      (fun a b => ∀ c, resolveManualColumn a.1 = some c →
        resolveManualColumn b.1 ≠ some c) ∧
    (applyManualCompanyUpdates (some sampleCompanyRow) (.finite 1)
      (.jobj (.cons "city" (.jstr "Espoo") .nil)) "t1" "d1").1.isOk = true ∧
    ∃ row1,
      (applyManualCompanyUpdates (some sampleCompanyRow) (.finite 1)
        (.jobj (.cons "city" (.jstr "Espoo") .nil)) "t1" "d1").2 = some row1 ∧
      applyManualCompanyUpdates (some row1) (.finite 1)
        (.jobj (.cons "city" (.jstr "Espoo") .nil)) "t2" "d2" =
        (.ok (.noChanges "No changes detected" (parseManualLog row1.manual_change_log)),
          some row1) :=
  ⟨by simp [JsObj.entries], by decide,
    c1_second_call_reports_no_changes sampleCompanyRow (.finite 1)
      (.cons "city" (.jstr "Espoo") .nil) "t1" "d1" "t2" "d2"
      (by simp [JsObj.entries]) (by decide)⟩

/-! ## Claim C7: printable numbers and decimal digit round trips

The change log is stored as `JSON.stringify` output and read back through
`JSON.parse` on the next call (read-modify-append).  Claim C7 therefore
needs that printing and re-parsing a log is the identity.  That holds for
the values this code can actually store: no `undefined`, distinct object
keys, and every number a finite double, whose reduced denominator divides
a power of ten. -/

/-- A divisor of some power of ten divides the power of ten whose exponent
is the divisor itself, so the printable-number condition is decidable. -/
theorem dvd_ten_pow_self {d k : ℕ} (h : d ∣ 10 ^ k) : d ∣ 10 ^ d := by
  have h2 : d ∣ 2 ^ k * 5 ^ k := by
    have h10 : (10 : ℕ) ^ k = 2 ^ k * 5 ^ k := by
      rw [← Nat.mul_pow]
    rwa [h10] at h
  obtain ⟨d2, d5, hd2, hd5, rfl⟩ := exists_dvd_and_dvd_of_dvd_mul h2
  obtain ⟨a, _, rfl⟩ := (Nat.dvd_prime_pow Nat.prime_two).mp hd2
  obtain ⟨b, _, rfl⟩ := (Nat.dvd_prime_pow (by norm_num)).mp hd5
  have ha2 : a ≤ 2 ^ a * 5 ^ b := by
    have h1 : a < 2 ^ a := Nat.lt_two_pow a
    have h5 : 0 < 5 ^ b := pow_pos (by norm_num) b
    have h3 : 2 ^ a * 1 ≤ 2 ^ a * 5 ^ b := Nat.mul_le_mul_left _ h5
    omega
  have hb2 : b ≤ 2 ^ a * 5 ^ b := by
    have h1 : b < 5 ^ b := Nat.lt_pow_self (by norm_num) b
    have h5 : 0 < 2 ^ a := pow_pos (by norm_num) a
    have h3 : 1 * 5 ^ b ≤ 2 ^ a * 5 ^ b := Nat.mul_le_mul_right _ h5
    omega
  have h10 : (10 : ℕ) ^ (2 ^ a * 5 ^ b) = 2 ^ (2 ^ a * 5 ^ b) * 5 ^ (2 ^ a * 5 ^ b) := by
    rw [← Nat.mul_pow]
  rw [h10]
  exact mul_dvd_mul (pow_dvd_pow 2 ha2) (pow_dvd_pow 5 hb2)

/-- Characters with equal code points are equal. -/
theorem char_eq_of_toNat_eq {c d : Char} (h : c.toNat = d.toNat) : c = d := by
  rw [← Char.ofNat_toNat c, h, Char.ofNat_toNat]

/-- Code point of a decimal digit character. -/
theorem toNat_digitChar : ∀ n < 10, (digitChar n).toNat = 48 + n := by decide

/-- Decimal digit characters satisfy `isDigitChar`. -/
theorem isDigitChar_digitChar : ∀ n < 10, isDigitChar (digitChar n) = true := by decide

/-- Decimal digit characters are not whitespace. -/
theorem not_ws_digitChar : ∀ n < 10, isWsChar (digitChar n) = false := by decide

/-- Folding more digits onto an accumulator shifts it by a power of ten. -/
theorem digitsToNat_shift (b : List Char) :
    ∀ acc : ℕ, b.foldl (fun a c => a * 10 + (c.toNat - 48)) acc =
      acc * 10 ^ b.length + digitsToNat b := by
  induction b with
  | nil => intro acc; simp [digitsToNat]
  | cons c tl ih =>
    intro acc
    have h1 : (c :: tl).foldl (fun a c2 => a * 10 + (c2.toNat - 48)) acc =
        tl.foldl (fun a c2 => a * 10 + (c2.toNat - 48)) (acc * 10 + (c.toNat - 48)) := rfl
    have h2 : digitsToNat (c :: tl) =
        tl.foldl (fun a c2 => a * 10 + (c2.toNat - 48)) (0 * 10 + (c.toNat - 48)) := rfl
    rw [h1, ih, h2, ih]
    simp [List.length_cons, pow_succ]
    ring

/-- Digit-list concatenation in terms of values. -/
theorem digitsToNat_append (a b : List Char) :
    digitsToNat (a ++ b) = digitsToNat a * 10 ^ b.length + digitsToNat b := by
  show (a ++ b).foldl _ 0 = _
  rw [List.foldl_append]
  exact digitsToNat_shift b _

/-- With enough fuel, `natDigitsAux` is a right inverse of `digitsToNat`. -/
theorem digitsToNat_natDigitsAux :
    ∀ fuel n : ℕ, n < 10 ^ fuel → digitsToNat (natDigitsAux fuel n) = n := by
  intro fuel
  induction fuel with
  | zero =>
    intro n hn
    have h0 : n = 0 := by
      have h1 : n < 1 := by simpa using hn
      omega
    subst h0
    rfl
  | succ f ih =>
    intro n hn
    rw [natDigitsAux]
    split
    · next h =>
      have h48 := toNat_digitChar n h
      simp [digitsToNat, h48]
    · next h =>
      rw [digitsToNat_append]
      have hd : n / 10 < 10 ^ f := by
        rw [Nat.div_lt_iff_lt_mul (by norm_num)]
        have hpow : 10 ^ f * 10 = 10 ^ (f + 1) := by rw [pow_succ]
        rw [hpow]
        exact hn
      rw [ih _ hd]
      have h48 := toNat_digitChar (n % 10) (Nat.mod_lt _ (by norm_num))
      simp [digitsToNat, h48]
      omega

/-- Decimal printing of a natural number round-trips through digit reading. -/
theorem digitsToNat_natRepr (n : ℕ) : digitsToNat (natRepr n) = n :=
  digitsToNat_natDigitsAux (n + 1) n
    (lt_trans (Nat.lt_pow_self (by norm_num) n) (Nat.pow_lt_pow_succ (by norm_num)))

/-- Every character `natDigitsAux` emits is a decimal digit. -/
theorem all_digits_natDigitsAux :
    ∀ fuel n : ℕ, ∀ c ∈ natDigitsAux fuel n, isDigitChar c = true := by
  intro fuel
  induction fuel with
  | zero => intro n c hc; simp [natDigitsAux] at hc
  | succ f ih =>
    intro n c hc
    rw [natDigitsAux] at hc
    split at hc
    · next h =>
      rcases List.mem_singleton.mp hc with rfl
      exact isDigitChar_digitChar n h
    · next h =>
      rcases List.mem_append.mp hc with h2 | h2
      · exact ih _ _ h2
      · rcases List.mem_singleton.mp h2 with rfl
        exact isDigitChar_digitChar _ (Nat.mod_lt _ (by norm_num))

/-- Every character of `natRepr` is a decimal digit. -/
theorem all_digits_natRepr (n : ℕ) : ∀ c ∈ natRepr n, isDigitChar c = true :=
  all_digits_natDigitsAux (n + 1) n

/-- With positive fuel the digit list is never empty. -/
theorem natDigitsAux_ne_nil (f n : ℕ) : natDigitsAux (f + 1) n ≠ [] := by
  rw [natDigitsAux]
  split
  · simp
  · simp

/-- `natRepr` never returns the empty digit list. -/
theorem natRepr_ne_nil (n : ℕ) : natRepr n ≠ [] := natDigitsAux_ne_nil n n

/-- Digit-count bound: a number below `10 ^ k` prints in at most `k`
digits (for `k ≥ 1`). -/
theorem length_natDigitsAux_le :
    ∀ fuel n k : ℕ, n < 10 ^ k → 1 ≤ k → (natDigitsAux fuel n).length ≤ k := by
  intro fuel
  induction fuel with
  | zero => intro n k _ _; simp [natDigitsAux]
  | succ f ih =>
    intro n k hn hk
    rw [natDigitsAux]
    split
    · next h => simpa using hk
    · next h =>
      push_neg at h
      have hk2 : 2 ≤ k := by
        by_contra hcon
        push_neg at hcon
        have hk1 : k = 1 := by omega
        subst hk1
        simp at hn
        omega
      have hd : n / 10 < 10 ^ (k - 1) := by
        rw [Nat.div_lt_iff_lt_mul (by norm_num)]
        have hpow : 10 ^ (k - 1) * 10 = 10 ^ k := by
          rw [← pow_succ]
          congr 1
          omega
        rw [hpow]
        exact hn
      have hih := ih (n / 10) (k - 1) hd (by omega)
      rw [List.length_append]
      simp
      omega

/-- A positive number never prints with a leading zero digit. -/
theorem headI_natDigitsAux_ne_zero :
    ∀ fuel n : ℕ, 0 < n → n < 10 ^ fuel → (natDigitsAux fuel n).headI ≠ '0' := by
  intro fuel
  induction fuel with
  | zero =>
    intro n h1 h2
    have : n < 1 := by simpa using h2
    omega
  | succ f ih =>
    intro n h1 h2
    rw [natDigitsAux]
    split
    · next h =>
      show digitChar n ≠ '0'
      intro heq
      have h48 := toNat_digitChar n h
      have : (48 : ℕ) + n = 48 := by
        rw [← h48, heq]
        rfl
      omega
    · next h =>
      push_neg at h
      rcases Nat.eq_zero_or_pos f with rfl | hf
      · have : n < 10 := by simpa using h2
        omega
      · obtain ⟨f2, rfl⟩ := Nat.exists_eq_succ_of_ne_zero (by omega : f ≠ 0)
        obtain ⟨c0, tl0, heq⟩ := List.exists_cons_of_ne_nil (natDigitsAux_ne_nil f2 (n / 10))
        rw [heq]
        have hih := ih (n / 10) (Nat.div_pos h (by norm_num)) (by
          rw [Nat.div_lt_iff_lt_mul (by norm_num)]
          rw [(pow_succ 10 (f2 + 1)).symm]
          exact h2)
        rw [heq] at hih
        simpa using hih

/-- Left-padding with zeros keeps the numeric value. -/
theorem foldl_replicate_zero (j : ℕ) :
    (List.replicate j '0').foldl (fun a c => a * 10 + (c.toNat - 48)) 0 = 0 := by
  induction j with
  | zero => rfl
  | succ i ih =>
    rw [List.replicate_succ, List.foldl_cons]
    simpa using ih

/-- Value of a zero-padded digit list. -/
theorem digitsToNat_padZeros (l : List Char) (k : ℕ) :
    digitsToNat (padZeros l k) = digitsToNat l := by
  show digitsToNat (List.replicate (k - l.length) '0' ++ l) = digitsToNat l
  show (List.replicate (k - l.length) '0' ++ l).foldl _ 0 = _
  rw [List.foldl_append, foldl_replicate_zero]
  rfl

/-- Length of a zero-padded digit list. -/
theorem length_padZeros (l : List Char) (k : ℕ) (h : l.length ≤ k) :
    (padZeros l k).length = k := by
  simp [padZeros]
  omega

/-- Zero padding emits only digits. -/
theorem all_digits_padZeros (l : List Char) (k : ℕ)
    (h : ∀ c ∈ l, isDigitChar c = true) :
    ∀ c ∈ padZeros l k, isDigitChar c = true := by
  intro c hc
  have hc2 : c ∈ List.replicate (k - l.length) '0' ++ l := hc
  rcases List.mem_append.mp hc2 with h2 | h2
  · rw [List.eq_of_mem_replicate h2]
    decide
  · exact h c h2

/-- Whether a character list does not start with a decimal digit. -/
def headNotDigit : List Char → Bool
  | [] => true
  | c :: _ => !isDigitChar c

/-- `takeDigits` splits a digit run followed by a non-digit exactly. -/
theorem takeDigits_digits_append (ds rest : List Char)
    (hds : ∀ c ∈ ds, isDigitChar c = true) (hrest : headNotDigit rest = true) :
    takeDigits (ds ++ rest) = (ds, rest) := by
  induction ds with
  | nil =>
    simp only [List.nil_append]
    cases rest with
    | nil => rfl
    | cons c tl =>
      simp only [headNotDigit, Bool.not_eq_true'] at hrest
      simp [takeDigits, hrest]
  | cons c tl ih =>
    have hc : isDigitChar c = true := hds c (List.mem_cons_self _ _)
    have ih2 := ih (fun c2 h2 => hds c2 (List.mem_cons_of_mem _ h2))
    simp [takeDigits, hc, ih2]

/-! ## String literal round trip -/

/-- Lower-case hex digits produced by the printer read back correctly. -/
theorem hexVal_hexDigitChar : ∀ n < 16, hexVal (hexDigitChar n) = some n := by decide

/-- Unescaping inverts escaping: the body parser consumes exactly the
escaped characters of `s` up to the closing quote. -/
theorem parseStringBody_escape (s : List Char) (rest : List Char) :
    parseStringBody ((s.map escapeChar).flatten ++ '"' :: rest) = some (s, rest) := by
  induction s with
  | nil =>
    simp only [List.map_nil, List.flatten_nil, List.nil_append]
    rw [parseStringBody.eq_def]
    rfl
  | cons c tl ih =>
    simp only [List.map_cons, List.flatten_cons, List.append_assoc]
    by_cases h1 : c = '"'
    · subst h1
      rw [show escapeChar '"' = ['\\', '"'] from by decide]
      simp only [List.cons_append, List.nil_append]
      rw [parseStringBody.eq_def]
      simp [ih]
    · by_cases h2 : c = '\\'
      · subst h2
        rw [show escapeChar '\\' = ['\\', '\\'] from by decide]
        simp only [List.cons_append, List.nil_append]
        rw [parseStringBody.eq_def]
        simp [ih]
      · by_cases h3 : c = '\n'
        · subst h3
          rw [show escapeChar '\n' = ['\\', 'n'] from by decide]
          simp only [List.cons_append, List.nil_append]
          rw [parseStringBody.eq_def]
          simp [ih]
        · by_cases h4 : c = '\r'
          · subst h4
            rw [show escapeChar '\r' = ['\\', 'r'] from by decide]
            simp only [List.cons_append, List.nil_append]
            rw [parseStringBody.eq_def]
            simp [ih]
          · by_cases h5 : c = '\t'
            · subst h5
              rw [show escapeChar '\t' = ['\\', 't'] from by decide]
              simp only [List.cons_append, List.nil_append]
              rw [parseStringBody.eq_def]
              simp [ih]
            · by_cases h6 : c.toNat = 8
              · have hc : c = '\x08' := char_eq_of_toNat_eq (by rw [h6]; rfl)
                subst hc
                rw [show escapeChar '\x08' = ['\\', 'b'] from by decide]
                simp only [List.cons_append, List.nil_append]
                rw [parseStringBody.eq_def]
                simp [ih, show Char.ofNat 8 = '\x08' from by decide]
              · by_cases h7 : c.toNat = 12
                · have hc : c = '\x0c' := char_eq_of_toNat_eq (by rw [h7]; rfl)
                  subst hc
                  rw [show escapeChar '\x0c' = ['\\', 'f'] from by decide]
                  simp only [List.cons_append, List.nil_append]
                  rw [parseStringBody.eq_def]
                  simp [ih, show Char.ofNat 12 = '\x0c' from by decide]
                · by_cases h8 : c.toNat < 32
                  · have ha := hexVal_hexDigitChar (c.toNat / 16) (by omega)
                    have hb := hexVal_hexDigitChar (c.toNat % 16) (Nat.mod_lt _ (by norm_num))
                    have h00 : hexVal '0' = some 0 := by decide
                    simp only [escapeChar, if_neg h1, if_neg h2, if_neg h3, if_neg h4,
                      if_neg h5, if_neg h6, if_neg h7, if_pos h8]
                    simp only [List.cons_append, List.nil_append]
                    rw [parseStringBody.eq_def]
                    simp [h00, ha, hb, ih]
                    rw [(by omega : c.toNat / 16 * 16 + c.toNat % 16 = c.toNat), Char.ofNat_toNat]
                  · simp only [escapeChar, if_neg h1, if_neg h2, if_neg h3, if_neg h4,
                      if_neg h5, if_neg h6, if_neg h7, if_neg h8]
                    simp only [List.singleton_append]
                    rw [parseStringBody.eq_def]
                    simp [h1, h2, ih]

/-! ## Number literal round trip -/
def numStopper : List Char → Bool
  | [] => true
  | c :: _ => !isDigitChar c && !(c = '.') && !(c = 'e') && !(c = 'E')

theorem headNotDigit_of_numStopper (rest : List Char) (h : numStopper rest = true) :
    headNotDigit rest = true := by
  cases rest with
  | nil => rfl
  | cons c tl =>
    simp only [numStopper, Bool.and_eq_true, Bool.not_eq_true'] at h
    simp [headNotDigit, h.1.1.1]

theorem numStopper_shape (rest : List Char) (hstop : numStopper rest = true) :
    rest = [] ∨ ∃ r0 rtl, rest = r0 :: rtl ∧ isDigitChar r0 = false ∧
      r0 ≠ '.' ∧ r0 ≠ 'e' ∧ r0 ≠ 'E' := by
  cases rest with
  | nil => exact Or.inl rfl
  | cons r0 rtl =>
    simp only [numStopper, Bool.and_eq_true, Bool.not_eq_true',
      decide_eq_false_iff_not] at hstop
    exact Or.inr ⟨r0, rtl, rfl, hstop.1.1.1, hstop.1.1.2, hstop.1.2, hstop.2⟩

theorem digit_char_cases (c : Char) (h : isDigitChar c = true) :
    c = '0' ∨ c = '1' ∨ c = '2' ∨ c = '3' ∨ c = '4' ∨ c = '5' ∨ c = '6' ∨
      c = '7' ∨ c = '8' ∨ c = '9' := by
  have hb : 48 ≤ c.toNat ∧ c.toNat ≤ 57 := by
    simpa [isDigitChar, Bool.and_eq_true, decide_eq_true_eq] using h
  have hall : ∀ n, n < 58 → 48 ≤ n → (Char.ofNat n = '0' ∨ Char.ofNat n = '1' ∨
      Char.ofNat n = '2' ∨ Char.ofNat n = '3' ∨ Char.ofNat n = '4' ∨ Char.ofNat n = '5' ∨
      Char.ofNat n = '6' ∨ Char.ofNat n = '7' ∨ Char.ofNat n = '8' ∨ Char.ofNat n = '9') := by
    decide
  have h2 := hall c.toNat (by omega) (by omega)
  rwa [Char.ofNat_toNat] at h2

theorem parseJsonNumber_digits (ds rest : List Char)
    (hds : ∀ c ∈ ds, isDigitChar c = true) (hne : ds ≠ [])
    (hlead : ds.length > 1 → ds.headI ≠ '0')
    (hstop : numStopper rest = true) :
    parseJsonNumber (ds ++ rest) = some (ratOfParts false (digitsToNat ds) 0 0, rest) := by
  obtain ⟨d, ds2, rfl⟩ := List.exists_cons_of_ne_nil hne
  have hd : isDigitChar d = true := hds d (List.mem_cons_self _ _)
  have htake : takeDigits ((d :: ds2) ++ rest) = (d :: ds2, rest) :=
    takeDigits_digits_append _ _ hds (headNotDigit_of_numStopper rest hstop)
  have hrest := numStopper_shape rest hstop
  by_cases h0 : d = '0'
  · subst h0
    have hnil : ds2 = [] := by
      cases ds2 with
      | nil => rfl
      | cons x xs =>
        have hh := hlead (by simp)
        simp at hh
    subst hnil
    rcases hrest with rfl | ⟨r0, rtl, rfl, hr1, hr2, hr3, hr4⟩
    · simp only [List.cons_append, List.nil_append, List.append_nil] at htake ⊢
      simp [parseJsonNumber, htake]
    · simp only [List.cons_append, List.nil_append] at htake ⊢
      simp [parseJsonNumber, htake, hr1, hr2, hr3, hr4]
  · rcases digit_char_cases d hd with rfl|rfl|rfl|rfl|rfl|rfl|rfl|rfl|rfl|rfl
    · exact absurd rfl h0
    all_goals rcases hrest with rfl | ⟨r0, rtl, rfl, hr1, hr2, hr3, hr4⟩
    all_goals simp only [List.cons_append, List.nil_append, List.append_nil] at htake ⊢
    all_goals simp [parseJsonNumber, htake, *]

theorem parseJsonNumber_digits_neg (ds rest : List Char)
    (hds : ∀ c ∈ ds, isDigitChar c = true) (hne : ds ≠ [])
    (hlead : ds.length > 1 → ds.headI ≠ '0')
    (hstop : numStopper rest = true) :
    parseJsonNumber ('-' :: (ds ++ rest)) =
      some (ratOfParts true (digitsToNat ds) 0 0, rest) := by
  obtain ⟨d, ds2, rfl⟩ := List.exists_cons_of_ne_nil hne
  have hd : isDigitChar d = true := hds d (List.mem_cons_self _ _)
  have htake : takeDigits ((d :: ds2) ++ rest) = (d :: ds2, rest) :=
    takeDigits_digits_append _ _ hds (headNotDigit_of_numStopper rest hstop)
  have hrest := numStopper_shape rest hstop
  by_cases h0 : d = '0'
  · subst h0
    have hnil : ds2 = [] := by
      cases ds2 with
      | nil => rfl
      | cons x xs =>
        have hh := hlead (by simp)
        simp at hh
    subst hnil
    rcases hrest with rfl | ⟨r0, rtl, rfl, hr1, hr2, hr3, hr4⟩
    · simp only [List.cons_append, List.nil_append, List.append_nil] at htake ⊢
      simp [parseJsonNumber, htake]
    · simp only [List.cons_append, List.nil_append] at htake ⊢
      simp [parseJsonNumber, htake, hr1, hr2, hr3, hr4]
  · rcases digit_char_cases d hd with rfl|rfl|rfl|rfl|rfl|rfl|rfl|rfl|rfl|rfl
    · exact absurd rfl h0
    all_goals rcases hrest with rfl | ⟨r0, rtl, rfl, hr1, hr2, hr3, hr4⟩
    all_goals simp only [List.cons_append, List.nil_append, List.append_nil] at htake ⊢
    all_goals simp [parseJsonNumber, htake, *]

theorem parseJsonNumber_frac (ds fs rest : List Char)
    (hds : ∀ c ∈ ds, isDigitChar c = true) (hne : ds ≠ [])
    (hfs : ∀ c ∈ fs, isDigitChar c = true) (hfne : fs ≠ [])
    (hlead : ds.length > 1 → ds.headI ≠ '0')
    (hstop : numStopper rest = true) :
    parseJsonNumber (ds ++ '.' :: (fs ++ rest)) =
      some (ratOfParts false (digitsToNat (ds ++ fs)) fs.length 0, rest) := by
  obtain ⟨d, ds2, rfl⟩ := List.exists_cons_of_ne_nil hne
  have hd : isDigitChar d = true := hds d (List.mem_cons_self _ _)
  have htake : takeDigits ((d :: ds2) ++ '.' :: (fs ++ rest)) =
      (d :: ds2, '.' :: (fs ++ rest)) :=
    takeDigits_digits_append _ _ hds (by rfl)
  have htakef : takeDigits (fs ++ rest) = (fs, rest) :=
    takeDigits_digits_append _ _ hfs (headNotDigit_of_numStopper rest hstop)
  have hrest := numStopper_shape rest hstop
  by_cases h0 : d = '0'
  · subst h0
    have hnil : ds2 = [] := by
      cases ds2 with
      | nil => rfl
      | cons x xs =>
        have hh := hlead (by simp)
        simp at hh
    subst hnil
    rcases hrest with rfl | ⟨r0, rtl, rfl, hr1, hr2, hr3, hr4⟩
    · simp only [List.cons_append, List.nil_append, List.append_nil] at htake htakef ⊢
      simp [parseJsonNumber, htake, htakef, hfne]
    · simp only [List.cons_append, List.nil_append] at htake htakef ⊢
      simp [parseJsonNumber, htake, htakef, hfne, hr1, hr2, hr3, hr4]
  · rcases digit_char_cases d hd with rfl|rfl|rfl|rfl|rfl|rfl|rfl|rfl|rfl|rfl
    · exact absurd rfl h0
    all_goals rcases hrest with rfl | ⟨r0, rtl, rfl, hr1, hr2, hr3, hr4⟩
    all_goals simp only [List.cons_append, List.nil_append, List.append_nil] at htake htakef ⊢
    all_goals simp [parseJsonNumber, htake, htakef, *]

theorem parseJsonNumber_frac_neg (ds fs rest : List Char)
    (hds : ∀ c ∈ ds, isDigitChar c = true) (hne : ds ≠ [])
    (hfs : ∀ c ∈ fs, isDigitChar c = true) (hfne : fs ≠ [])
    (hlead : ds.length > 1 → ds.headI ≠ '0')
    (hstop : numStopper rest = true) :
    parseJsonNumber ('-' :: (ds ++ '.' :: (fs ++ rest))) =
      some (ratOfParts true (digitsToNat (ds ++ fs)) fs.length 0, rest) := by
  obtain ⟨d, ds2, rfl⟩ := List.exists_cons_of_ne_nil hne
  have hd : isDigitChar d = true := hds d (List.mem_cons_self _ _)
  have htake : takeDigits ((d :: ds2) ++ '.' :: (fs ++ rest)) =
      (d :: ds2, '.' :: (fs ++ rest)) :=
    takeDigits_digits_append _ _ hds (by rfl)
  have htakef : takeDigits (fs ++ rest) = (fs, rest) :=
    takeDigits_digits_append _ _ hfs (headNotDigit_of_numStopper rest hstop)
  have hrest := numStopper_shape rest hstop
  by_cases h0 : d = '0'
  · subst h0
    have hnil : ds2 = [] := by
      cases ds2 with
      | nil => rfl
      | cons x xs =>
        have hh := hlead (by simp)
        simp at hh
    subst hnil
    rcases hrest with rfl | ⟨r0, rtl, rfl, hr1, hr2, hr3, hr4⟩
    · simp only [List.cons_append, List.nil_append, List.append_nil] at htake htakef ⊢
      simp [parseJsonNumber, htake, htakef, hfne]
    · simp only [List.cons_append, List.nil_append] at htake htakef ⊢
      simp [parseJsonNumber, htake, htakef, hfne, hr1, hr2, hr3, hr4]
  · rcases digit_char_cases d hd with rfl|rfl|rfl|rfl|rfl|rfl|rfl|rfl|rfl|rfl
    · exact absurd rfl h0
    all_goals rcases hrest with rfl | ⟨r0, rtl, rfl, hr1, hr2, hr3, hr4⟩
    all_goals simp only [List.cons_append, List.nil_append, List.append_nil] at htake htakef ⊢
    all_goals simp [parseJsonNumber, htake, htakef, *]

theorem mkRat_mul_cancel_right (a : ℤ) (b c : ℕ) (hc : c ≠ 0) :
    mkRat (a * (c : ℤ)) (b * c) = mkRat a b := by
  rw [Rat.mkRat_eq_div, Rat.mkRat_eq_div]
  push_cast
  rw [mul_div_mul_right]
  exact_mod_cast hc

theorem ratOfParts_int_val (neg : Bool) (n : ℕ) :
    ratOfParts neg n 0 0 = (((if neg then -1 else 1) * (n : ℤ) : ℤ) : ℚ) := by
  cases neg <;> simp [ratOfParts, Rat.mkRat_one]

theorem ratOfParts_decimal_val (neg : Bool) (n d k : ℕ) (hk : k ≠ 0)
    (hdvd : d ∣ 10 ^ k) :
    ratOfParts neg (n * 10 ^ k / d) k 0 =
      mkRat ((if neg then -1 else 1) * (n : ℤ)) d := by
  have hm : n * 10 ^ k / d = n * (10 ^ k / d) := Nat.mul_div_assoc n hdvd
  have hc : 10 ^ k / d * d = 10 ^ k := Nat.div_mul_cancel hdvd
  have hc0 : 10 ^ k / d ≠ 0 := by
    intro h
    rw [h] at hc
    simp at hc
    have h10 : (10 : ℕ) ^ k ≠ 0 := pow_ne_zero _ (by norm_num)
    exact h10 hc.symm
  unfold ratOfParts
  rw [if_neg (by omega : ¬((0 : ℤ) ≥ (k : ℕ)))]
  rw [hm]
  have htk : (((k : ℕ) : ℤ) - 0).toNat = k := by omega
  rw [htk, Nat.cast_mul, ← mul_assoc]
  nth_rewrite 2 [hc.symm.trans (Nat.mul_comm _ _)]
  exact mkRat_mul_cancel_right _ _ _ hc0

theorem natRepr_lt_bound (n : ℕ) : n < 10 ^ (n + 1) :=
  lt_trans (Nat.lt_pow_self (by norm_num) n) (Nat.pow_lt_pow_succ (by norm_num))

theorem natRepr_no_leading_zero (n : ℕ) :
    (natRepr n).length > 1 → (natRepr n).headI ≠ '0' := by
  intro hlen
  have hn : 0 < n := by
    by_contra hc
    push_neg at hc
    have h0 : n = 0 := by omega
    subst h0
    simp [natRepr, natDigitsAux] at hlen
  exact headI_natDigitsAux_ne_zero (n + 1) n hn (natRepr_lt_bound n)

theorem parseJsonNumber_print (q : ℚ) (hq : q.den ∣ 10 ^ q.den) (rest : List Char)
    (hstop : numStopper rest = true) :
    parseJsonNumber ((jsNumToString q).data ++ rest) = some (q, rest) := by
  by_cases hn0 : q.num = 0
  · have hq0 : q = 0 := Rat.num_eq_zero.mp hn0
    subst hq0
    have h1 : jsNumToString 0 = "0" := by norm_num [jsNumToString]
    rw [h1, show ("0" : String).data = ['0'] from rfl]
    rw [parseJsonNumber_digits ['0'] rest (by decide) (by simp)
      (by intro h; simp at h) hstop]
    rw [show ratOfParts false (digitsToNat ['0']) 0 0 = (0 : ℚ) from by decide]
  · have hfind : ((List.range (q.den + 1)).find?
        (fun k => decide (q.den ∣ 10 ^ k))).isSome = true := by
      rw [List.find?_isSome]
      exact ⟨q.den, by simp [List.mem_range], by simpa using hq⟩
    obtain ⟨k, hk⟩ := Option.isSome_iff_exists.mp hfind
    have hkdvd : q.den ∣ 10 ^ k := by simpa using List.find?_some hk
    simp only [jsNumToString, if_neg hn0, hk]
    by_cases hk0 : k = 0
    · subst hk0
      have hden1 : q.den = 1 := Nat.dvd_one.mp (by simpa using hkdvd)
      rw [if_pos rfl]
      have hq2 : ((q.num : ℤ) : ℚ) = q := by
        conv_rhs => rw [← Rat.mkRat_self q, hden1, Rat.mkRat_one]
      by_cases hneg : q.num < 0
      · rw [if_pos hneg]
        show parseJsonNumber (('-' :: natRepr q.num.natAbs) ++ rest) = some (q, rest)
        simp only [List.cons_append]
        rw [parseJsonNumber_digits_neg _ rest (all_digits_natRepr _) (natRepr_ne_nil _)
          (natRepr_no_leading_zero _) hstop]
        have hval : ratOfParts true (digitsToNat (natRepr q.num.natAbs)) 0 0 = q := by
          rw [digitsToNat_natRepr, ratOfParts_int_val]
          rw [show (q.num.natAbs : ℤ) = -q.num from by omega]
          rw [show ((if (true : Bool) = true then -1 else 1 : ℤ) * -q.num) = q.num from by
            simp]
          exact hq2
        rw [hval]
      · rw [if_neg hneg]
        show parseJsonNumber (natRepr q.num.natAbs ++ rest) = some (q, rest)
        rw [parseJsonNumber_digits _ rest (all_digits_natRepr _) (natRepr_ne_nil _)
          (natRepr_no_leading_zero _) hstop]
        have hval : ratOfParts false (digitsToNat (natRepr q.num.natAbs)) 0 0 = q := by
          rw [digitsToNat_natRepr, ratOfParts_int_val]
          rw [show (q.num.natAbs : ℤ) = q.num from by omega]
          rw [show ((if (false : Bool) = true then -1 else 1 : ℤ) * q.num) = q.num from by
            simp]
          exact hq2
        rw [hval]
    · have hkpos : 1 ≤ k := Nat.pos_of_ne_zero hk0
      rw [if_neg hk0]
      have hmlt : (q.num.natAbs * 10 ^ k / q.den) % 10 ^ k < 10 ^ k :=
        Nat.mod_lt _ (pow_pos (by norm_num) k)
      have hflen : (natRepr ((q.num.natAbs * 10 ^ k / q.den) % 10 ^ k)).length ≤ k :=
        length_natDigitsAux_le _ _ k hmlt hkpos
      have hfsd : ∀ c ∈ padZeros (natRepr ((q.num.natAbs * 10 ^ k / q.den) % 10 ^ k)) k,
          isDigitChar c = true :=
        all_digits_padZeros _ k (all_digits_natRepr _)
      have hplen := length_padZeros _ k hflen
      have hfne : padZeros (natRepr ((q.num.natAbs * 10 ^ k / q.den) % 10 ^ k)) k ≠ [] := by
        intro hempty
        rw [hempty] at hplen
        simp at hplen
        omega
      have hval : digitsToNat (natRepr ((q.num.natAbs * 10 ^ k / q.den) / 10 ^ k) ++
          padZeros (natRepr ((q.num.natAbs * 10 ^ k / q.den) % 10 ^ k)) k) =
          q.num.natAbs * 10 ^ k / q.den := by
        rw [digitsToNat_append, hplen, digitsToNat_padZeros,
          digitsToNat_natRepr, digitsToNat_natRepr]
        exact Nat.div_add_mod' _ _
      by_cases hneg : q.num < 0
      · rw [if_pos hneg]
        show parseJsonNumber (('-' :: (natRepr ((q.num.natAbs * 10 ^ k / q.den) / 10 ^ k) ++
            '.' :: padZeros (natRepr ((q.num.natAbs * 10 ^ k / q.den) % 10 ^ k)) k)) ++ rest) =
          some (q, rest)
        simp only [List.cons_append, List.append_assoc]
        rw [parseJsonNumber_frac_neg _ _ rest (all_digits_natRepr _) (natRepr_ne_nil _)
          hfsd hfne (natRepr_no_leading_zero _) hstop]
        rw [hval, hplen, ratOfParts_decimal_val true _ _ k hk0 hkdvd]
        rw [show ((if (true : Bool) = true then -1 else 1 : ℤ) * (q.num.natAbs : ℤ)) = q.num from by
          rw [if_pos rfl]
          omega]
        rw [Rat.mkRat_self]
      · rw [if_neg hneg]
        show parseJsonNumber ((natRepr ((q.num.natAbs * 10 ^ k / q.den) / 10 ^ k) ++
            '.' :: padZeros (natRepr ((q.num.natAbs * 10 ^ k / q.den) % 10 ^ k)) k) ++ rest) =
          some (q, rest)
        simp only [List.cons_append, List.append_assoc]
        rw [parseJsonNumber_frac _ _ rest (all_digits_natRepr _) (natRepr_ne_nil _)
          hfsd hfne (natRepr_no_leading_zero _) hstop]
        rw [hval, hplen, ratOfParts_decimal_val false _ _ k hk0 hkdvd]
        rw [show ((if (false : Bool) = true then -1 else 1 : ℤ) * (q.num.natAbs : ℤ)) = q.num from by
          rw [if_neg (by decide : ¬((false : Bool) = true))]
          omega]
        rw [Rat.mkRat_self]

/-! ## Parser fuel, printable values and the full JSON round trip -/

mutual
/-- Fuel needed by `parseValue` to parse the printed form of a value. -/
def jsize : JsValue → Nat
  | .jarr a => jsizeArr a + 1
  | .jobj o => jsizeObj o + 1
  | _ => 1
/-- Fuel needed by `parseArrItems` for the printed items. -/
def jsizeArr : JsArr → Nat
  | .nil => 0
  | .cons v tl => jsize v + jsizeArr tl + 1
/-- Fuel needed by `parseObjItems` for the printed members. -/
def jsizeObj : JsObj → Nat
  | .nil => 0
  | .cons _ v tl => jsize v + jsizeObj tl + 1
end

/-- Characters that may follow a printed value inside a printed log (end of
input, a comma, or a closing bracket). -/
def isStopper : List Char → Bool
  | [] => true
  | c :: _ => c = ',' || c = ']' || c = '\x7d'

/-- Whether an object already has a field with the given key. -/
def objHasKey : JsObj → String → Bool
  | .nil, _ => false
  | .cons k0 _ tl, k => k0 = k || objHasKey tl k

/-- Concatenation of two objects (field lists). -/
def objCat : JsObj → JsObj → JsObj
  | .nil, o => o
  | .cons k v tl, o => .cons k v (objCat tl o)

mutual
/-- Printable JavaScript values: what `JSON.stringify` output parses back
to itself.  No `undefined`, every number a finite double (denominator
divides a power of ten, decided at the exponent `q.den` by
`dvd_ten_pow_self`), and object keys distinct. -/
def wfJson : JsValue → Bool
  | .undef => false
  | .jnull => true
  | .jbool _ => true
  | .jnum q => decide (q.den ∣ 10 ^ q.den)
  | .jstr _ => true
  | .jarr a => wfArr a
  | .jobj o => wfObj o
/-- Printable arrays: every element printable. -/
def wfArr : JsArr → Bool
  | .nil => true
  | .cons v tl => wfJson v && wfArr tl
/-- Printable objects: distinct keys and printable values. -/
def wfObj : JsObj → Bool
  | .nil => true
  | .cons k v tl => !objHasKey tl k && wfJson v && wfObj tl
end

/-- Every value needs at least one unit of fuel. -/
theorem jsize_pos (v : JsValue) : 1 ≤ jsize v := by
  cases v <;> simp [jsize]

/-- A value stopper is in particular a number stopper. -/
theorem numStopper_of_isStopper (rest : List Char) (h : isStopper rest = true) :
    numStopper rest = true := by
  cases rest with
  | nil => rfl
  | cons c tl =>
    simp only [isStopper, Bool.or_eq_true, decide_eq_true_eq] at h
    rcases h with (rfl | rfl) | rfl <;> rfl

/-- Decimal digits are not JSON whitespace. -/
theorem not_ws_of_digit (c : Char) (h : isDigitChar c = true) : isWsChar c = false := by
  have hb : 48 ≤ c.toNat ∧ c.toNat ≤ 57 := by
    simpa [isDigitChar, Bool.and_eq_true, decide_eq_true_eq] using h
  rcases digit_char_cases c h with rfl|rfl|rfl|rfl|rfl|rfl|rfl|rfl|rfl|rfl <;> decide

/-- `skipWs` does not consume a non-whitespace head. -/
theorem skipWs_not_ws (c : Char) (cs : List Char) (h : isWsChar c = false) :
    skipWs (c :: cs) = c :: cs := by
  simp [skipWs, h]

/-- The printed form of a number starts with a minus sign or a digit. -/
theorem jsNumToString_head (q : ℚ) :
    ∃ c cs2, (jsNumToString q).data = c :: cs2 ∧ (c = '-' ∨ isDigitChar c = true) := by
  simp only [jsNumToString]
  by_cases hn0 : q.num = 0
  · rw [if_pos hn0]
    exact ⟨'0', [], rfl, Or.inr (by decide)⟩
  · rw [if_neg hn0]
    rcases hfind : (List.range (q.den + 1)).find? (fun k => decide (q.den ∣ 10 ^ k))
      with _ | k
    · simp only [hfind]
      by_cases hneg : q.num < 0
      · rw [if_pos hneg]
        exact ⟨'-', _, rfl, Or.inl rfl⟩
      · rw [if_neg hneg]
        obtain ⟨c, tl, hc⟩ := List.exists_cons_of_ne_nil (natRepr_ne_nil q.num.natAbs)
        refine ⟨c, tl ++ '/' :: natRepr q.den, ?_, Or.inr ?_⟩
        · show [] ++ natRepr q.num.natAbs ++ '/' :: natRepr q.den = _
          rw [hc]
          rfl
        · exact all_digits_natRepr _ c (hc ▸ List.mem_cons_self _ _)
    · simp only [hfind]
      by_cases hk0 : k = 0
      · subst hk0
        rw [if_pos rfl]
        by_cases hneg : q.num < 0
        · rw [if_pos hneg]
          exact ⟨'-', _, rfl, Or.inl rfl⟩
        · rw [if_neg hneg]
          obtain ⟨c, tl, hc⟩ := List.exists_cons_of_ne_nil (natRepr_ne_nil q.num.natAbs)
          refine ⟨c, tl, ?_, Or.inr ?_⟩
          · show [] ++ natRepr q.num.natAbs = _
            rw [hc]
            rfl
          · exact all_digits_natRepr _ c (hc ▸ List.mem_cons_self _ _)
      · rw [if_neg hk0]
        by_cases hneg : q.num < 0
        · rw [if_pos hneg]
          exact ⟨'-', _, rfl, Or.inl rfl⟩
        · rw [if_neg hneg]
          obtain ⟨c, tl, hc⟩ := List.exists_cons_of_ne_nil
            (natRepr_ne_nil (q.num.natAbs * 10 ^ k / q.den / 10 ^ k))
          refine ⟨c, tl ++ '.' :: padZeros (natRepr (q.num.natAbs * 10 ^ k / q.den % 10 ^ k)) k,
            ?_, Or.inr ?_⟩
          · show [] ++ natRepr (q.num.natAbs * 10 ^ k / q.den / 10 ^ k) ++ _ = _
            rw [hc]
            rfl
          · exact all_digits_natRepr _ c (hc ▸ List.mem_cons_self _ _)

/-- On a printed number, `parseValue` falls through every structural
pattern and delegates to the number parser. -/
theorem parseValue_jnum (fuel : Nat) (q : ℚ) (rest : List Char) :
    parseValue (fuel + 1) ((jsNumToString q).data ++ rest) =
      (parseJsonNumber ((jsNumToString q).data ++ rest)).map
        (fun r => (.jnum r.1, r.2)) := by
  obtain ⟨c, cs2, heq, hc⟩ := jsNumToString_head q
  rw [heq]
  have hcases : c = '-' ∨ c = '0' ∨ c = '1' ∨ c = '2' ∨ c = '3' ∨ c = '4' ∨ c = '5' ∨
      c = '6' ∨ c = '7' ∨ c = '8' ∨ c = '9' := by
    rcases hc with rfl | hcd
    · exact Or.inl rfl
    · exact Or.inr (digit_char_cases c hcd)
  rcases hcases with rfl|rfl|rfl|rfl|rfl|rfl|rfl|rfl|rfl|rfl|rfl <;>
    simp [parseValue, skipWs, isWsChar]

/-- The printed form of a value starts with a non-whitespace character that
is not a closing bracket. -/
theorem printJsonChars_head (v : JsValue) :
    ∃ c cs2, printJsonChars v = c :: cs2 ∧ isWsChar c = false ∧ c ≠ ']' := by
  cases v with
  | undef => exact ⟨'n', _, rfl, by decide, by decide⟩
  | jnull => exact ⟨'n', _, rfl, by decide, by decide⟩
  | jbool b =>
    cases b
    · exact ⟨'f', _, rfl, by decide, by decide⟩
    · exact ⟨'t', _, rfl, by decide, by decide⟩
  | jnum q =>
    obtain ⟨c, cs2, heq, hc⟩ := jsNumToString_head q
    refine ⟨c, cs2, by simpa [printJsonChars] using heq, ?_, ?_⟩
    · rcases hc with rfl | hcd
      · decide
      · exact not_ws_of_digit c hcd
    · rcases hc with rfl | hcd
      · decide
      · intro hbr
        subst hbr
        exact absurd hcd (by decide)
  | jstr s => exact ⟨'"', _, rfl, by decide, by decide⟩
  | jarr a =>
    cases a with
    | nil => exact ⟨'[', _, rfl, by decide, by decide⟩
    | cons x tl => exact ⟨'[', _, rfl, by decide, by decide⟩
  | jobj o =>
    cases o with
    | nil => exact ⟨'{', _, rfl, by decide, by decide⟩
    | cons k x tl => exact ⟨'{', _, rfl, by decide, by decide⟩

/-- Assigning a fresh key appends the field. -/
theorem jsObjSet_not_mem : ∀ (acc : JsObj) (k : String) (v : JsValue),
    objHasKey acc k = false → jsObjSet acc k v = objCat acc (.cons k v .nil)
  | .nil, _, _, _ => rfl
  | .cons k0 v0 tl, k, v, h => by
    have h2 : (decide (k0 = k)) = false ∧ objHasKey tl k = false := by
      simpa [objHasKey] using h
    simp [jsObjSet, objCat, decide_eq_false_iff_not.mp h2.1,
      jsObjSet_not_mem tl k v h2.2]

/-- Object concatenation is associative. -/
theorem objCat_assoc : ∀ (a b c : JsObj),
    objCat (objCat a b) c = objCat a (objCat b c)
  | .nil, _, _ => rfl
  | .cons k v tl, b, c => by
    simp [objCat, objCat_assoc tl b c]

/-- Key membership distributes over object concatenation. -/
theorem objHasKey_objCat : ∀ (a b : JsObj) (k : String),
    objHasKey (objCat a b) k = (objHasKey a k || objHasKey b k)
  | .nil, _, _ => by simp [objCat, objHasKey]
  | .cons k0 v0 tl, b, k => by
    simp [objCat, objHasKey, objHasKey_objCat tl b k, Bool.or_assoc]

mutual
/-- The printed form is at least as long as the fuel the parser needs. -/
theorem jsize_le_length_print (v : JsValue) :
    jsize v ≤ (printJsonChars v).length := by
  cases v with
  | undef => simp [jsize, printJsonChars]
  | jnull => simp [jsize, printJsonChars]
  | jbool b => cases b <;> simp [jsize, printJsonChars]
  | jnum q =>
    obtain ⟨c, cs2, heq, _⟩ := jsNumToString_head q
    simp [jsize, printJsonChars, heq]
  | jstr s => simp [jsize, printJsonChars, quoteString]
  | jarr a =>
    cases a with
    | nil => simp [jsize, jsizeArr, printJsonChars]
    | cons x tl =>
      have h1 := jsizeArr_le_length_print (.cons x tl)
      simp only [jsizeArr, printJsonArr, List.length_cons, List.length_append] at h1
      simp only [jsize, jsizeArr, printJsonChars, List.length_cons, List.length_append]
      omega
  | jobj o =>
    cases o with
    | nil => simp [jsize, jsizeObj, printJsonChars]
    | cons k x tl =>
      have h1 := jsizeObj_le_length_print (.cons k x tl)
      simp only [jsizeObj, printJsonObj, List.length_cons, List.length_append] at h1
      simp only [jsize, jsizeObj, printJsonChars, List.length_cons, List.length_append]
      omega
/-- Companion bound for printed array items. -/
theorem jsizeArr_le_length_print (a : JsArr) :
    jsizeArr a ≤ (printJsonArr a).length := by
  cases a with
  | nil => simp [jsizeArr, printJsonArr]
  | cons x tl =>
    have h1 := jsize_le_length_print x
    have h2 := jsizeArr_le_length_print tl
    simp only [jsizeArr, printJsonArr, List.length_cons, List.length_append]
    omega
/-- Companion bound for printed object members. -/
theorem jsizeObj_le_length_print (o : JsObj) :
    jsizeObj o ≤ (printJsonObj o).length := by
  cases o with
  | nil => simp [jsizeObj, printJsonObj]
  | cons k x tl =>
    have h1 := jsize_le_length_print x
    have h2 := jsizeObj_le_length_print tl
    simp only [jsizeObj, printJsonObj, List.length_cons, List.length_append]
    omega
end


theorem parseValue_print_all : ∀ fuel : Nat,
    (∀ (v : JsValue) (rest : List Char), wfJson v = true → jsize v ≤ fuel →
      isStopper rest = true →
      parseValue fuel (printJsonChars v ++ rest) = some (v, rest)) ∧
    (∀ (x : JsValue) (a : JsArr) (rest : List Char), wfJson x = true → wfArr a = true →
      jsize x + jsizeArr a + 1 ≤ fuel → isStopper rest = true →
      parseArrItems fuel (printJsonChars x ++ (printJsonArr a ++ (']' :: rest))) =
        some (.cons x a, rest)) ∧
    (∀ (k : String) (x : JsValue) (o : JsObj) (acc : JsObj) (rest : List Char),
      wfObj (.cons k x o) = true →
      (∀ k2, objHasKey (.cons k x o) k2 = true → objHasKey acc k2 = false) →
      jsize x + jsizeObj o + 1 ≤ fuel → isStopper rest = true →
      parseObjItems fuel
        ('"' :: ((k.data.map escapeChar).flatten ++ ('"' :: (':' ::
          (printJsonChars x ++ (printJsonObj o ++ ('\x7d' :: rest))))))) acc =
        some (objCat acc (.cons k x o), rest)) := by
  intro fuel
  induction fuel with
  | zero =>
    refine ⟨?_, ?_, ?_⟩
    · intro v rest _ hsz _
      exact absurd hsz (by have := jsize_pos v; omega)
    · intro x a rest _ _ hsz _
      exact absurd hsz (by omega)
    · intro k x o acc rest _ _ hsz _
      exact absurd hsz (by omega)
  | succ fuel ih =>
    obtain ⟨ih1, ih2, ih3⟩ := ih
    refine ⟨?_, ?_, ?_⟩
    · intro v rest hwf hsz hstop
      cases v with
      | undef => exact absurd hwf (by simp [wfJson])
      | jnull => simp [printJsonChars, parseValue, skipWs, isWsChar]
      | jbool b => cases b <;> simp [printJsonChars, parseValue, skipWs, isWsChar]
      | jnum q =>
        have hdvd : q.den ∣ 10 ^ q.den := by simpa [wfJson] using hwf
        show parseValue (fuel + 1) ((jsNumToString q).data ++ rest) = _
        rw [parseValue_jnum, parseJsonNumber_print q hdvd rest
          (numStopper_of_isStopper rest hstop)]
        rfl
      | jstr s =>
        have hbody := parseStringBody_escape s.data rest
        simp only [printJsonChars, quoteString, List.cons_append, List.append_assoc,
          List.nil_append, List.singleton_append]
        simp [parseValue, skipWs, isWsChar, hbody]
      | jarr a =>
        cases a with
        | nil => simp [printJsonChars, parseValue, skipWs, isWsChar]
        | cons x tl =>
          have hwf2 : wfJson x = true ∧ wfArr tl = true := by
            simpa [wfJson, wfArr, Bool.and_eq_true] using hwf
          have hsz2 : jsize x + jsizeArr tl + 1 ≤ fuel := by
            simp only [jsize, jsizeArr] at hsz
            omega
          obtain ⟨c, cs2, hpr, hws, hrb⟩ := printJsonChars_head x
          have harr := ih2 x tl rest hwf2.1 hwf2.2 hsz2 hstop
          simp only [printJsonChars, List.cons_append, List.append_assoc]
          simp only [parseValue]
          rw [skipWs_not_ws '[' _ (by decide)]
          simp only [List.nil_append]
          rw [hpr]
          simp only [List.cons_append]
          rw [skipWs_not_ws c _ hws]
          split
          · next heq =>
            exfalso
            rw [List.cons.injEq] at heq
            exact hrb heq.1
          · rw [show c :: (cs2 ++ (printJsonArr tl ++ (']' :: rest))) =
                printJsonChars x ++ (printJsonArr tl ++ (']' :: rest)) from by rw [hpr]; rfl]
            rw [harr]
            rfl
      | jobj o =>
        cases o with
        | nil => simp [printJsonChars, parseValue, skipWs, isWsChar]
        | cons k x tl =>
          have hwfo : wfObj (.cons k x tl) = true := by simpa [wfJson] using hwf
          have hsz2 : jsize x + jsizeObj tl + 1 ≤ fuel := by
            simp only [jsize, jsizeObj] at hsz
            omega
          have hobj := ih3 k x tl .nil rest hwfo (fun k2 _ => rfl) hsz2 hstop
          simp only [printJsonChars, quoteString, List.cons_append, List.append_assoc,
            List.nil_append]
          simp only [parseValue]
          rw [skipWs_not_ws '{' _ (by decide)]
          simp [skipWs, isWsChar, hobj, objCat]
    · intro x a rest hwfx hwfa hsz hstop
      have hst2 : isStopper (printJsonArr a ++ (']' :: rest)) = true := by
        cases a with
        | nil => rfl
        | cons y tl => rfl
      have hx : parseValue fuel (printJsonChars x ++ (printJsonArr a ++ (']' :: rest))) =
          some (x, printJsonArr a ++ (']' :: rest)) :=
        ih1 x _ hwfx (by omega) hst2
      simp only [parseArrItems]
      rw [hx]
      simp only [Option.some_bind]
      cases a with
      | nil => simp [printJsonArr, skipWs, isWsChar]
      | cons y tl =>
        have hwf2 : wfJson y = true ∧ wfArr tl = true := by
          simpa [wfArr, Bool.and_eq_true] using hwfa
        have hsz3 : jsize y + jsizeArr tl + 1 ≤ fuel := by
          have hpos := jsize_pos x
          simp only [jsizeArr] at hsz
          omega
        have harr := ih2 y tl rest hwf2.1 hwf2.2 hsz3 hstop
        simp only [printJsonArr, List.cons_append, List.append_assoc]
        rw [skipWs_not_ws ',' _ (by decide)]
        simp [harr]
    · intro k x o acc rest hwfo hdisj hsz hstop
      have hko : (objHasKey o k = false ∧ wfJson x = true) ∧ wfObj o = true := by
        simpa [wfObj, Bool.and_eq_true, Bool.not_eq_true'] using hwfo
      have hfresh : objHasKey acc k = false := hdisj k (by simp [objHasKey])
      have hbody := parseStringBody_escape k.data
        (':' :: (printJsonChars x ++ (printJsonObj o ++ ('\x7d' :: rest))))
      have hst2 : isStopper (printJsonObj o ++ ('\x7d' :: rest)) = true := by
        cases o with
        | nil => rfl
        | cons k2 y tl => rfl
      have hx : parseValue fuel (printJsonChars x ++ (printJsonObj o ++ ('\x7d' :: rest))) =
          some (x, printJsonObj o ++ ('\x7d' :: rest)) :=
        ih1 x _ hko.1.2 (by omega) hst2
      simp only [parseObjItems]
      rw [skipWs_not_ws '"' _ (by decide)]
      simp only []
      rw [hbody]
      simp only [Option.some_bind]
      rw [skipWs_not_ws ':' _ (by decide)]
      simp only []
      rw [hx]
      cases o with
      | nil =>
        simp only [Option.some_bind, printJsonObj, List.nil_append]
        rw [skipWs_not_ws '\x7d' _ (by decide)]
        simp only []
        rw [show (⟨k.data⟩ : String) = k from rfl]
        rw [jsObjSet_not_mem acc k x hfresh]
      | cons k2 y tl =>
        have hwfi : wfObj (.cons k2 y tl) = true := hko.2
        have hsz3 : jsize y + jsizeObj tl + 1 ≤ fuel := by
          have hpos := jsize_pos x
          simp only [jsizeObj] at hsz
          omega
        have hdisj2 : ∀ k3, objHasKey (.cons k2 y tl) k3 = true →
            objHasKey (objCat acc (.cons k x .nil)) k3 = false := by
          intro k3 h3
          rw [objHasKey_objCat]
          have ha : objHasKey acc k3 = false := by
            refine hdisj k3 ?_
            have hstep : objHasKey (JsObj.cons k x (JsObj.cons k2 y tl)) k3 =
                (decide (k = k3) || objHasKey (JsObj.cons k2 y tl) k3) := rfl
            rw [hstep, h3, Bool.or_true]
          have hb : objHasKey (JsObj.cons k x .nil) k3 = false := by
            have hstep : objHasKey (JsObj.cons k x .nil) k3 =
                (decide (k = k3) || false) := rfl
            rw [hstep, Bool.or_false, decide_eq_false_iff_not]
            intro hkk3
            subst hkk3
            rw [h3] at hko
            exact Bool.noConfusion hko.1.1
          rw [ha, hb]
          rfl
        have hrec := ih3 k2 y tl (objCat acc (.cons k x .nil)) rest hwfi hdisj2 hsz3 hstop
        simp only [Option.some_bind, printJsonObj, quoteString, List.cons_append,
          List.append_assoc, List.nil_append]
        rw [skipWs_not_ws ',' _ (by decide)]
        simp only []
        rw [show (⟨k.data⟩ : String) = k from rfl]
        rw [jsObjSet_not_mem acc k x hfresh]
        rw [hrec, objCat_assoc]
        rfl

/-- Printing and parsing a printable value round-trips. -/
theorem parseJson_printJson (v : JsValue) (hwf : wfJson v = true) :
    parseJson (printJson v) = some v := by
  unfold parseJson printJson
  have hlen : (⟨printJsonChars v⟩ : String).length = (printJsonChars v).length := rfl
  have hdata : (⟨printJsonChars v⟩ : String).data = printJsonChars v := rfl
  rw [hlen, hdata]
  have h1 := (parseValue_print_all ((printJsonChars v).length + 1)).1 v [] hwf
    (by have := jsize_le_length_print v; omega) rfl
  rw [show printJsonChars v ++ ([] : List Char) = printJsonChars v from by simp] at h1
  rw [h1]
  rfl

/-- Rebuilding an array from a list and listing it back is the identity. -/
theorem toList_jsArrOfList : ∀ L : List JsValue, (jsArrOfList L).toList = L
  | [] => rfl
  | v :: tl => by simp [jsArrOfList, JsArr.toList, toList_jsArrOfList tl]

/-- An array of printable values is printable. -/
theorem wfArr_jsArrOfList : ∀ L : List JsValue, (∀ v ∈ L, wfJson v = true) →
    wfArr (jsArrOfList L) = true
  | [], _ => rfl
  | v :: tl, h => by
    simp [jsArrOfList, wfArr, h v (List.mem_cons_self _ _),
      wfArr_jsArrOfList tl (fun x hx => h x (List.mem_cons_of_mem _ hx))]

/-- The printed characters of an array literal are nonempty. -/
theorem printJsonChars_jarr_ne_nil (a : JsArr) : printJsonChars (.jarr a) ≠ [] := by
  cases a with
  | nil => simp [printJsonChars]
  | cons v tl => simp [printJsonChars]

/-- Reading back a stored, printed log recovers exactly the log list. -/
theorem parseManualLog_print (L : List JsValue) (h : ∀ v ∈ L, wfJson v = true) :
    parseManualLog (.vtext (printJson (.jarr (jsArrOfList L)))) = L := by
  have hwf : wfJson (.jarr (jsArrOfList L)) = true := wfArr_jsArrOfList L h
  have hparse := parseJson_printJson _ hwf
  have hne : printJson (.jarr (jsArrOfList L)) ≠ "" := by
    unfold printJson
    intro hh
    exact printJsonChars_jarr_ne_nil (jsArrOfList L) (congrArg String.data hh)
  simp [parseManualLog, SqlValue.truthy, hne, hparse, toList_jsArrOfList]

/-! ## Parser outputs are printable values (soundness for the round trip) -/


theorem ratOfParts_den_dvd (neg : Bool) (m f : ℕ) (e : ℤ) :
    (ratOfParts neg m f e).den ∣ 10 ^ (ratOfParts neg m f e).den := by
  have hgen : ∀ (s : ℤ) (j : ℕ), (mkRat s (10 ^ j)).den ∣ 10 ^ (mkRat s (10 ^ j)).den := by
    intro s j
    have hden : ((mkRat s (10 ^ j)).den : ℤ) ∣ (((10 : ℕ) ^ j : ℕ) : ℤ) := by
      rw [Rat.mkRat_eq_divInt]
      exact Rat.den_dvd _ _
    exact dvd_ten_pow_self (Int.ofNat_dvd.mp hden)
  have hint : ∀ s : ℤ, (mkRat s 1).den ∣ 10 ^ (mkRat s 1).den := by
    intro s
    rw [Rat.mkRat_one, Rat.den_intCast]
    simp
  cases neg <;> simp only [ratOfParts] <;> split <;> first | exact hint _ | exact hgen _ _

theorem parseJsonNumber_shape (cs : List Char) :
    parseJsonNumber cs = none ∨
    ∃ neg m f e rest, parseJsonNumber cs = some (ratOfParts neg m f e, rest) := by
  unfold parseJsonNumber
  repeat' first | split | simp only []
  all_goals first
    | exact Or.inl rfl
    | exact Or.inl trivial
    | exact Or.inr ⟨_, _, _, _, _, rfl⟩

theorem parseJsonNumber_wf (cs : List Char) (q : ℚ) (rest : List Char)
    (h : parseJsonNumber cs = some (q, rest)) : q.den ∣ 10 ^ q.den := by
  rcases parseJsonNumber_shape cs with hs | ⟨neg, m, f, e, rest2, hs⟩
  · rw [hs] at h
    exact Option.noConfusion h
  · rw [hs] at h
    injection h with h2
    injection h2 with h3 _
    subst h3
    exact ratOfParts_den_dvd _ _ _ _

theorem objHasKey_jsObjSet : ∀ (o : JsObj) (k : String) (v : JsValue) (k2 : String),
    objHasKey (jsObjSet o k v) k2 = (objHasKey o k2 || decide (k = k2))
  | .nil, k, v, k2 => by simp [jsObjSet, objHasKey]
  | .cons k0 v0 tl, k, v, k2 => by
    by_cases hk : k0 = k
    · subst hk
      simp only [jsObjSet, if_pos rfl, objHasKey]
      cases hd : (decide (k0 = k2)) <;> simp [hd]
    · simp only [jsObjSet, if_neg hk, objHasKey, objHasKey_jsObjSet tl k v k2,
        Bool.or_assoc]

theorem wfObj_jsObjSet : ∀ (acc : JsObj) (k : String) (v : JsValue),
    wfObj acc = true → wfJson v = true → wfObj (jsObjSet acc k v) = true
  | .nil, k, v, _, hv => by simp [jsObjSet, wfObj, objHasKey, hv]
  | .cons k0 v0 tl, k, v, hacc, hv => by
    have h3 : (objHasKey tl k0 = false ∧ wfJson v0 = true) ∧ wfObj tl = true := by
      simpa [wfObj, Bool.and_eq_true, Bool.not_eq_true'] using hacc
    by_cases hk : k0 = k
    · subst hk
      simp [jsObjSet, wfObj, h3.1.1, h3.2, hv]
    · simp only [jsObjSet, if_neg hk]
      simp only [wfObj, Bool.and_eq_true, Bool.not_eq_true']
      refine ⟨⟨?_, h3.1.2⟩, wfObj_jsObjSet tl k v h3.2 hv⟩
      rw [objHasKey_jsObjSet, h3.1.1, Bool.false_or, decide_eq_false_iff_not]
      exact fun hh => hk hh.symm

theorem parseValue_wf_all : ∀ fuel : Nat,
    (∀ cs v rest, parseValue fuel cs = some (v, rest) → wfJson v = true) ∧
    (∀ cs a rest, parseArrItems fuel cs = some (a, rest) → wfArr a = true) ∧
    (∀ cs acc o rest, wfObj acc = true → parseObjItems fuel cs acc = some (o, rest) →
      wfObj o = true) := by
  intro fuel
  induction fuel with
  | zero =>
    refine ⟨?_, ?_, ?_⟩
    · intro cs v rest h
      exact Option.noConfusion h
    · intro cs a rest h
      exact Option.noConfusion h
    · intro cs acc o rest _ h
      exact Option.noConfusion h
  | succ fuel ih =>
    obtain ⟨ih1, ih2, ih3⟩ := ih
    refine ⟨?_, ?_, ?_⟩
    · intro cs v rest h
      rw [parseValue] at h
      split at h
      · obtain ⟨p, _, hv⟩ := Option.map_eq_some'.mp h
        rw [Prod.mk.injEq] at hv
        rw [← hv.1]
        rfl
      · injection h with h2
        rw [Prod.mk.injEq] at h2
        rw [← h2.1]
        rfl
      · injection h with h2
        rw [Prod.mk.injEq] at h2
        rw [← h2.1]
        rfl
      · injection h with h2
        rw [Prod.mk.injEq] at h2
        rw [← h2.1]
        rfl
      · split at h
        · injection h with h2
          rw [Prod.mk.injEq] at h2
          rw [← h2.1]
          rfl
        · obtain ⟨p, hp, hv⟩ := Option.map_eq_some'.mp h
          rw [Prod.mk.injEq] at hv
          rw [← hv.1]
          exact ih2 _ p.1 p.2 hp
      · split at h
        · injection h with h2
          rw [Prod.mk.injEq] at h2
          rw [← h2.1]
          rfl
        · obtain ⟨p, hp, hv⟩ := Option.map_eq_some'.mp h
          rw [Prod.mk.injEq] at hv
          rw [← hv.1]
          exact ih3 _ .nil p.1 p.2 rfl hp
      · obtain ⟨p, hp, hv⟩ := Option.map_eq_some'.mp h
        rw [Prod.mk.injEq] at hv
        rw [← hv.1]
        exact decide_eq_true (parseJsonNumber_wf _ p.1 p.2 hp)
    · intro cs a rest h
      rw [parseArrItems] at h
      rcases hpv : parseValue fuel cs with _ | r
      · rw [hpv] at h
        exact Option.noConfusion h
      · rw [hpv] at h
        simp only [Option.some_bind] at h
        split at h
        · obtain ⟨p, hp, hv⟩ := Option.map_eq_some'.mp h
          rw [Prod.mk.injEq] at hv
          rw [← hv.1]
          simp only [wfArr, Bool.and_eq_true]
          exact ⟨ih1 cs r.1 r.2 hpv, ih2 _ p.1 p.2 hp⟩
        · injection h with h2
          rw [Prod.mk.injEq] at h2
          rw [← h2.1]
          simp only [wfArr, Bool.and_eq_true]
          exact ⟨ih1 cs r.1 r.2 hpv, trivial⟩
        · exact Option.noConfusion h
    · intro cs acc o rest hacc h
      rw [parseObjItems] at h
      split at h
      · rcases hsb : parseStringBody _ with _ | rk
        · rw [hsb] at h
          exact Option.noConfusion h
        · rw [hsb] at h
          simp only [Option.some_bind] at h
          split at h
          · rcases hpv : parseValue fuel _ with _ | rv
            · rw [hpv] at h
              exact Option.noConfusion h
            · rw [hpv] at h
              simp only [Option.some_bind] at h
              split at h
              · exact ih3 _ _ o rest
                  (wfObj_jsObjSet acc _ rv.1 hacc (ih1 _ rv.1 rv.2 hpv)) h
              · injection h with h2
                rw [Prod.mk.injEq] at h2
                rw [← h2.1]
                exact wfObj_jsObjSet acc _ rv.1 hacc (ih1 _ rv.1 rv.2 hpv)
              · exact Option.noConfusion h
          · exact Option.noConfusion h
      · exact Option.noConfusion h

theorem parseJson_wf (s : String) (v : JsValue) (h : parseJson s = some v) :
    wfJson v = true := by
  unfold parseJson at h
  rcases hpv : parseValue (s.length + 1) s.data with _ | r
  · rw [hpv] at h
    exact Option.noConfusion h
  · rw [hpv] at h
    split at h
    · next v2 rest2 heq =>
      injection heq with heq2
      split at h
      · injection h with h3
        rw [← h3]
        exact (parseValue_wf_all _).1 _ v2 rest2 (by rw [hpv, heq2])
      · exact Option.noConfusion h
    · next heq => exact Option.noConfusion heq

theorem wf_of_mem_toList : ∀ (a : JsArr), wfArr a = true →
    ∀ v ∈ a.toList, wfJson v = true
  | .nil, _, v, hv => absurd hv (by simp [JsArr.toList])
  | .cons x tl, h, v, hv => by
    have h2 : wfJson x = true ∧ wfArr tl = true := by
      simpa [wfArr, Bool.and_eq_true] using h
    rcases List.mem_cons.mp (by simpa [JsArr.toList] using hv) with rfl | hv2
    · exact h2.1
    · exact wf_of_mem_toList tl h2.2 v hv2

theorem wf_parseManualLog (cell : SqlValue) :
    ∀ v ∈ parseManualLog cell, wfJson v = true := by
  intro v hv
  unfold parseManualLog at hv
  split at hv
  · exact absurd hv (List.not_mem_nil v)
  · split at hv
    all_goals simp only [] at hv
    all_goals split at hv
    all_goals first
      | exact absurd hv (List.not_mem_nil v)
      | (next xs heq => exact wf_of_mem_toList xs (parseJson_wf _ _ heq) v hv)

theorem mkRat_int_den_dvd (n : ℤ) : (mkRat n 1).den ∣ 10 ^ (mkRat n 1).den := by
  rw [Rat.mkRat_one, Rat.den_intCast]
  simp

theorem finiteDecimal_wf (neg : Bool) (mant f : ℕ) (e : ℤ) (q : ℚ)
    (h : finiteDecimal neg mant f e = some q) : q.den ∣ 10 ^ q.den := by
  unfold finiteDecimal at h
  repeat' first | split at h | simp only [] at h
  all_goals first
    | exact Option.noConfusion h
    | (injection h with h2
       rw [← h2]
       decide)
    | (injection h with h2
       rw [← h2]
       exact ratOfParts_den_dvd _ _ _ _)

theorem jsParseDecimalChars_shape (cs : List Char) :
    jsParseFiniteNumber.jsParseDecimalChars cs = none ∨
    ∃ neg m f e, jsParseFiniteNumber.jsParseDecimalChars cs = finiteDecimal neg m f e := by
  unfold jsParseFiniteNumber.jsParseDecimalChars
  repeat' first | split | simp only []
  all_goals first
    | exact Or.inl rfl
    | exact Or.inl trivial
    | exact Or.inr ⟨_, _, _, _, rfl⟩

theorem jsParseDecimalChars_wf (cs : List Char) (q : ℚ)
    (h : jsParseFiniteNumber.jsParseDecimalChars cs = some q) : q.den ∣ 10 ^ q.den := by
  rcases jsParseDecimalChars_shape cs with hs | ⟨neg, m, f, e, hs⟩
  · rw [hs] at h
    exact Option.noConfusion h
  · rw [hs] at h
    exact finiteDecimal_wf neg m f e q h

theorem jsParseFiniteNumber_wf (s : String) (q : ℚ)
    (h : jsParseFiniteNumber s = some q) : q.den ∣ 10 ^ q.den := by
  unfold jsParseFiniteNumber at h
  split at h
  · split at h
    · rcases hrd : parseRadixDigits 16 _ with _ | n
      · rw [hrd] at h
        exact Option.noConfusion h
      · rw [hrd] at h
        simp only [Option.some_bind] at h
        split at h
        · exact Option.noConfusion h
        · injection h with h2
          rw [← h2]
          exact mkRat_int_den_dvd _
    · split at h
      · rcases hrd : parseRadixDigits 8 _ with _ | n
        · rw [hrd] at h
          exact Option.noConfusion h
        · rw [hrd] at h
          simp only [Option.some_bind] at h
          injection h with h2
          rw [← h2]
          exact mkRat_int_den_dvd _
      · split at h
        · rcases hrd : parseRadixDigits 2 _ with _ | n
          · rw [hrd] at h
            exact Option.noConfusion h
          · rw [hrd] at h
            simp only [Option.some_bind] at h
            injection h with h2
            rw [← h2]
            exact mkRat_int_den_dvd _
        · exact jsParseDecimalChars_wf _ q h
  · exact jsParseDecimalChars_wf _ q h

/-- Printable SQLite cells: a numeric cell holds a finite double. -/
def wfCell : SqlValue → Bool
  | .vnum q => decide (q.den ∣ 10 ^ q.den)
  | _ => true

/-- Printable rows: every editable column holds a printable cell. -/
def wfRowCells (r : CompanyRow) : Bool :=
  MANUAL_EDITABLE_COLUMNS.all (fun c => wfCell (getCol r c))

theorem wf_jsOfSql (cell : SqlValue) (h : wfCell cell = true) :
    wfJson (jsOfSql cell) = true := by
  cases cell with
  | vnull => rfl
  | vnum q => exact h
  | vtext s => rfl

theorem coerceManualValue_wf (c : String) (raw v : JsValue) (hr : wfJson raw = true)
    (h : coerceManualValue c raw = .persist v) : wfJson v = true := by
  cases raw with
  | undef => exact CoerceOutcome.noConfusion h
  | jnull =>
    injection h with h2
    rw [← h2]
    rfl
  | jstr s =>
    simp only [coerceManualValue] at h
    split at h
    · injection h with h2
      rw [← h2]
      rfl
    · split at h
      · split at h
        · exact CoerceOutcome.noConfusion h
        · next numeric heq =>
          injection h with h2
          rw [← h2]
          exact decide_eq_true (jsParseFiniteNumber_wf _ _ heq)
      · injection h with h2
        rw [← h2]
        rfl
  | jnum q =>
    simp only [coerceManualValue] at h
    split at h
    · injection h with h2
      rw [← h2]
      exact hr
    · injection h with h2
      rw [← h2]
      rfl
  | jbool b =>
    injection h with h2
    rw [← h2]
    rfl
  | jarr a =>
    injection h with h2
    rw [← h2]
    exact hr
  | jobj o =>
    injection h with h2
    rw [← h2]
    exact hr

theorem wf_entries_of_wfObj : ∀ (fs : JsObj), wfObj fs = true →
    ∀ e ∈ fs.entries, wfJson e.2 = true
  | .nil, _, e, he => absurd he (by simp [JsObj.entries])
  | .cons k v tl, h, e, he => by
    have h2 : (objHasKey tl k = false ∧ wfJson v = true) ∧ wfObj tl = true := by
      simpa [wfObj, Bool.and_eq_true, Bool.not_eq_true'] using h
    rcases List.mem_cons.mp (by simpa [JsObj.entries] using he) with rfl | he2
    · exact h2.1.2
    · exact wf_entries_of_wfObj tl h2.2 e he2

theorem wf_manualLogEntryToJson (e : ManualLogEntry) (h1 : wfCell e.fromValue = true)
    (h2 : wfJson e.toValue = true) : wfJson (manualLogEntryToJson e) = true := by
  have hfrom := wf_jsOfSql e.fromValue h1
  simp [manualLogEntryToJson, wfJson, wfObj, objHasKey, hfrom, h2]

theorem stepEntry_changes_wf (row : CompanyRow) (ts : String) (acc : UAcc)
    (entry : String × JsValue) (hrow : wfRowCells row = true)
    (hent : wfJson entry.2 = true)
    (hacc : ∀ ch ∈ acc.changes, wfCell ch.fromValue = true ∧ wfJson ch.toValue = true) :
    ∀ ch ∈ (stepEntry row ts acc entry).changes,
      wfCell ch.fromValue = true ∧ wfJson ch.toValue = true := by
  rcases hres : resolveManualColumn entry.1 with _ | c
  · simpa [stepEntry, hres] using hacc
  · rcases hco : coerceManualValue c entry.2 with _ | v | m
    · simpa [stepEntry, hres, hco] using hacc
    · simp only [stepEntry, hres, hco]
      split
      · exact hacc
      · intro ch hch
        rcases List.mem_append.mp hch with hm | hm
        · exact hacc ch hm
        · rcases List.mem_singleton.mp hm with rfl
          refine ⟨?_, coerceManualValue_wf c entry.2 v hent hco⟩
          have hc := resolveManualColumn_mem_editable entry.1 c hres
          exact List.all_eq_true.mp hrow _ hc
    · simpa [stepEntry, hres, hco] using hacc

theorem foldl_changes_wf (row : CompanyRow) (ts : String)
    (entries : List (String × JsValue)) (hrow : wfRowCells row = true)
    (hents : ∀ e ∈ entries, wfJson e.2 = true) :
    ∀ acc : UAcc,
      (∀ ch ∈ acc.changes, wfCell ch.fromValue = true ∧ wfJson ch.toValue = true) →
      ∀ ch ∈ (entries.foldl (stepEntry row ts) acc).changes,
        wfCell ch.fromValue = true ∧ wfJson ch.toValue = true := by
  induction entries with
  | nil => exact fun acc hacc => hacc
  | cons e tl ih =>
    intro acc hacc
    rw [List.foldl_cons]
    exact ih (fun e2 he2 => hents e2 (List.mem_cons_of_mem _ he2)) _
      (stepEntry_changes_wf row ts acc e hrow (hents e (List.mem_cons_self _ _)) hacc)

theorem processEntries_changes_wf (row : CompanyRow) (ts : String)
    (entries : List (String × JsValue)) (hrow : wfRowCells row = true)
    (hents : ∀ e ∈ entries, wfJson e.2 = true) :
    ∀ ch ∈ (processEntries row ts entries).changes,
      wfCell ch.fromValue = true ∧ wfJson ch.toValue = true :=
  foldl_changes_wf row ts entries hrow hents ⟨[], [], []⟩
    (fun ch hch => absurd hch (List.not_mem_nil ch))

theorem applyManual_invalid_updates (existingRow? : Option CompanyRow)
    (companyId : JsNumber) (updates : JsValue) (ts now : String)
    (hid : companyId.isInteger = true)
    (hbad : (!updates.truthy || !(updates.typeName == "object") || updates.isArray) = true) :
    applyManualCompanyUpdates existingRow? companyId updates ts now =
      (.error .invalidUpdates, existingRow?) := by
  rw [applyManualCompanyUpdates.eq_def, if_neg (by simp [hid]), if_pos hbad]

theorem mcl_updated_row (row : CompanyRow) (payload : List (String × JsValue))
    (logStr : String) (now : String)
    (hkeys : ∀ p ∈ payload, p.1 ∈ MANUAL_EDITABLE_COLUMNS) :
    (setColSql (applyPayload row (objSetStr payload "manual_change_log" (.jstr logStr)))
        "updated_at" (.vtext now)).manual_change_log = .vtext logStr := by
  rw [mcl_setColSql_of_ne _ _ _ (by decide)]
  have hnot : "manual_change_log" ∉ payload.map Prod.fst := by
    intro hh
    rcases List.mem_map.mp hh with ⟨p, hp, hpe⟩
    have hmem := hkeys p hp
    rw [hpe] at hmem
    exact absurd hmem (by decide)
  rw [objSetStr_eq_append _ _ _ hnot, applyPayload_append]
  show (setColSql (applyPayload row payload) "manual_change_log"
    (.vtext logStr)).manual_change_log = _
  exact mcl_setColSql_self _ _

/-- C7: the company record's manual change log only ever grows and its
entries are immutable once written.  For every call to
`applyManualCompanyUpdates` on a stored row (any stored log state, any
update map of printable values, any company id), if afterwards a row is
stored, then the stored log after the call - as `parseManualLog` reads
it - is the log before the call with zero or more new entries appended,
no prior entry removed or altered. -/
theorem c7_change_log_append_only (row : CompanyRow) (companyId : JsNumber)
    (updates : JsValue) (ts now : String)
    (res : Except CompanyUpdateErr ManualUpdateOutcome) (row2 : CompanyRow)
    (hrow : wfRowCells row = true) (hupd : wfJson updates = true)
    (hcall : applyManualCompanyUpdates (some row) companyId updates ts now =
      (res, some row2)) :
    ∃ appended : List JsValue,
      parseManualLog row2.manual_change_log =
        parseManualLog row.manual_change_log ++ appended := by
  by_cases hid : companyId.isInteger = true
  case neg =>
    rw [applyManual_invalid_id _ _ _ _ _ (eq_false_of_ne_true hid)] at hcall
    injection hcall with _ h2
    injection h2 with h2
    exact ⟨[], by rw [← h2]; simp⟩
  case pos =>
    cases updates with
    | undef =>
      rw [applyManual_invalid_updates _ _ _ _ _ hid (by rfl)] at hcall
      injection hcall with _ h2
      injection h2 with h2
      exact ⟨[], by rw [← h2]; simp⟩
    | jnull =>
      rw [applyManual_invalid_updates _ _ _ _ _ hid (by rfl)] at hcall
      injection hcall with _ h2
      injection h2 with h2
      exact ⟨[], by rw [← h2]; simp⟩
    | jbool b =>
      rw [applyManual_invalid_updates _ _ _ _ _ hid
        (by simp [JsValue.truthy, JsValue.typeName, JsValue.isArray])] at hcall
      injection hcall with _ h2
      injection h2 with h2
      exact ⟨[], by rw [← h2]; simp⟩
    | jnum q =>
      rw [applyManual_invalid_updates _ _ _ _ _ hid
        (by simp [JsValue.truthy, JsValue.typeName, JsValue.isArray])] at hcall
      injection hcall with _ h2
      injection h2 with h2
      exact ⟨[], by rw [← h2]; simp⟩
    | jstr s =>
      rw [applyManual_invalid_updates _ _ _ _ _ hid
        (by simp [JsValue.truthy, JsValue.typeName, JsValue.isArray])] at hcall
      injection hcall with _ h2
      injection h2 with h2
      exact ⟨[], by rw [← h2]; simp⟩
    | jarr a =>
      rw [applyManual_invalid_updates _ _ _ _ _ hid
        (by simp [JsValue.truthy, JsValue.typeName, JsValue.isArray])] at hcall
      injection hcall with _ h2
      injection h2 with h2
      exact ⟨[], by rw [← h2]; simp⟩
    | jobj fs =>
      by_cases herr : (processEntries row ts fs.entries).errors = []
      case neg =>
        rw [applyManualCompanyUpdates_error_of_errors row companyId fs ts now hid herr]
          at hcall
        injection hcall with _ h2
        injection h2 with h2
        exact ⟨[], by rw [← h2]; simp⟩
      case pos =>
        by_cases hpay : (processEntries row ts fs.entries).payload = []
        · rw [applyManual_noChanges_case row companyId fs ts now hid herr hpay] at hcall
          injection hcall with _ h2
          injection h2 with h2
          exact ⟨[], by rw [← h2]; simp⟩
        · rcases hbind : bindOk (objSetStr (processEntries row ts fs.entries).payload
              "manual_change_log" (.jstr (printJson (.jarr (jsArrOfList
                (parseManualLog row.manual_change_log ++
                  (processEntries row ts fs.entries).changes.map manualLogEntryToJson))))))
            with hb | hb
          · rw [applyManual_bind_fail row companyId fs ts now hid herr hpay hbind] at hcall
            injection hcall with _ h2
            injection h2 with h2
            exact ⟨[], by rw [← h2]; simp⟩
          · rw [applyManual_updated_case row companyId fs ts now hid herr hpay hbind] at hcall
            injection hcall with _ h2
            injection h2 with h2
            refine ⟨(processEntries row ts fs.entries).changes.map manualLogEntryToJson, ?_⟩
            rw [← h2]
            rw [mcl_updated_row row (processEntries row ts fs.entries).payload
              (printJson (.jarr (jsArrOfList (parseManualLog row.manual_change_log ++
                (processEntries row ts fs.entries).changes.map manualLogEntryToJson)))) now
              (fun p hp => foldl_payload_keys_editable row ts fs.entries ⟨[], [], []⟩
                (fun p2 hp2 => absurd hp2 (List.not_mem_nil p2)) p hp)]
            refine parseManualLog_print _ ?_
            intro v hv
            rcases List.mem_append.mp hv with hm | hm
            · exact wf_parseManualLog row.manual_change_log v hm
            · rcases List.mem_map.mp hm with ⟨ch, hch, rfl⟩
              have hwfch := processEntries_changes_wf row ts fs.entries hrow
                (wf_entries_of_wfObj fs hupd) ch hch
              exact wf_manualLogEntryToJson ch hwfch.1 hwfch.2

/-- A one-field update map used by the C7 witness. -/
def c7UpdatesWitness : JsValue := .jobj (.cons "city" (.jstr "Espoo") .nil)

/-- Witness for C7: a concrete successful update appends its entry to the
(previously empty) stored change log. -/
theorem c7_change_log_append_only_witness :
    (wfRowCells sampleCompanyRow = true ∧ wfJson c7UpdatesWitness = true) ∧
    ∃ appended : List JsValue,
      parseManualLog (((applyManualCompanyUpdates (some sampleCompanyRow) (.finite 1)
          c7UpdatesWitness "2024-02-01T00:00:00.000Z" "2024-02-01 00:00:00").2.getD
            sampleCompanyRow).manual_change_log) =
        parseManualLog sampleCompanyRow.manual_change_log ++ appended :=
  ⟨⟨by decide, by decide⟩,
   c7_change_log_append_only sampleCompanyRow (.finite 1) c7UpdatesWitness
     "2024-02-01T00:00:00.000Z" "2024-02-01 00:00:00"
     (applyManualCompanyUpdates (some sampleCompanyRow) (.finite 1) c7UpdatesWitness
       "2024-02-01T00:00:00.000Z" "2024-02-01 00:00:00").1
     ((applyManualCompanyUpdates (some sampleCompanyRow) (.finite 1) c7UpdatesWitness
       "2024-02-01T00:00:00.000Z" "2024-02-01 00:00:00").2.getD sampleCompanyRow)
     (by decide) (by decide) (by decide)⟩
